/-
Verification of the bkskjold team-balancing and fine-ledger core.

Shallow embedding of:
  - src/spond_integration.py      (FinesCalculator: event fines, ledger sync, summary)
  - src/views/training_history.py (complete_pending_match, delete_pending_match)
  - src/views/team_selector.py    (complete_pending_match — identical logic)
  - src/intelligent_team_generator.py (statistics, greedy and optimal balancers)

Modelling conventions:
  - Python floats are modelled as ℚ (all arithmetic in the claims is exact).
  - The persisted fines dict is an association list `List (String × FineRecord)`
    in insertion order; Python dict insertion order and lookup match this when
    keys are unique, which the insert-if-absent discipline maintains.
  - Randomness (random.shuffle) is injected: the shuffled list is a parameter,
    constrained by a `Perm` hypothesis in the theorems.
  - Wall-clock time and datetime parsing are injected as parameters
    (`now`, `hoursUntil`, `afterCutoff`): the claims hold for every value.
-/
import Mathlib

namespace Bkskjold

/-! ## app_config.py constants -/

def FINE_MISSING_TRAINING : ℚ := 50
def FINE_MISSING_MATCH : ℚ := 100
def FINE_LATE_RESPONSE : ℚ := 25
def LATE_RESPONSE_FINE : ℚ := FINE_LATE_RESPONSE

/-! ## Data model: fine records and the ledger (src/spond_integration.py) -/

/-- One fine record, as built by `calculate_event_fines` /
`_check_no_response_fines` (the dict literal fields). The optional
`paid_date` field is omitted: no claim mentions it. -/
structure FineRecord where
  player_id : String
  player_name : String
  event_id : String
  event_name : String
  event_date : String
  fine_type : String
  fine_amount : ℚ
  paid : Bool
  created_date : String
deriving DecidableEq, Repr

/-- The persisted `fines_data` mapping: fine key → record, in insertion order. -/
abbrev Ledger := List (String × FineRecord)

/-- The insert-if-absent step of `update_fines_for_events`
(`if fine_key not in self.fines_data: self.fines_data[fine_key] = fine_info`);
the spec calls this operation `add_if_absent`. -/
def addIfAbsent (st : Ledger) (k : String) (r : FineRecord) : Ledger :=
  if (List.lookup k st).isSome then st else st ++ [(k, r)]

/-- A Spond event as consumed by the fines calculator: id, heading,
start timestamp, and the three response id lists. -/
structure SpondEvent where
  id : String
  heading : String
  startTimestamp : String
  acceptedIds : List String
  declinedIds : List String
  unansweredIds : List String
deriving DecidableEq, Repr

/-- A group member: id and name parts. -/
structure Member where
  id : String
  firstName : String
  lastName : String
deriving DecidableEq, Repr

/-- `f"{firstName} {lastName}"` for the member with the given id, defaulting to
`f"Unknown ({player_id})"` — the `member_map` of `calculate_event_fines`.
Later list entries win on duplicate ids, as in a Python dict comprehension. -/
def memberName (members : List Member) (pid : String) : String :=
  match (members.reverse).find? (fun m => m.id = pid) with
  | some m => m.firstName ++ " " ++ m.lastName
  | none => "Unknown (" ++ pid ++ ")"

/-- Same mapping but with `.strip()`, as built inside `_check_no_response_fines`. -/
def memberNameStripped (members : List Member) (pid : String) : String :=
  match (members.reverse).find? (fun m => m.id = pid) with
  | some m => (m.firstName ++ " " ++ m.lastName).trim
  | none => "Unknown (" ++ pid ++ ")"

/-- `any(keyword in event_heading.lower() for keyword in ['match','kamp','spill','game'])`. -/
def isMatchEvent (heading : String) : Bool :=
  ["match", "kamp", "spill", "game"].any
    (fun kw => decide (List.IsInfix kw.toList heading.toLower.toList))

/-- The `missing_event` fine dict built in `calculate_event_fines`. -/
def missingFine (now : String) (ev : SpondEvent) (amount : ℚ)
    (members : List Member) (pid : String) : FineRecord :=
  { player_id := pid
  , player_name := memberName members pid
  , event_id := ev.id
  , event_name := ev.heading
  , event_date := ev.startTimestamp
  , fine_type := "missing_event"
  , fine_amount := amount
  , paid := false
  , created_date := now }

/-- The `no_response_24h` fine dict built in `_check_no_response_fines`. -/
def noResponseFine (now : String) (ev : SpondEvent) (m : Member) : FineRecord :=
  { player_id := m.id
  , player_name := memberNameStripped [m] m.id
  , event_id := ev.id
  , event_name := ev.heading
  , event_date := ev.startTimestamp
  , fine_type := "no_response_24h"
  , fine_amount := LATE_RESPONSE_FINE
  , paid := false
  , created_date := now }

/-- `_check_no_response_fines`: `hoursUntil` stands for the computed
`(event_time - current_time) / 3600`. Iterates members, skipping anyone who
already has an entry in `event_fines`, and fines members in `unansweredIds`. -/
def checkNoResponseFines (now : String) (hoursUntil : ℚ) (ev : SpondEvent)
    (members : List Member) (fines : List (String × FineRecord)) :
    List (String × FineRecord) :=
  if ev.startTimestamp = "" then fines
  else if 24 < hoursUntil ∨ hoursUntil < 0 then fines
  else
    members.foldl
      (fun acc m =>
        if (List.lookup m.id acc).isSome then acc
        else if m.id ∈ ev.unansweredIds then acc ++ [(m.id, noResponseFine now ev m)]
        else acc)
      fines

/-- `calculate_event_fines`: one `missing_event` fine per player in
declined ∪ unanswered (keyed by player id), then the 24-hour no-response check.
Python iterates the set union; only membership matters downstream, and
`dedup` keeps one entry per id as the set does. -/
def calculateEventFines (now : String) (hoursUntil : ℚ) (ev : SpondEvent)
    (members : List Member) : List (String × FineRecord) :=
  let amount := if isMatchEvent ev.heading then FINE_MISSING_MATCH else FINE_MISSING_TRAINING
  let missing := (ev.declinedIds ++ ev.unansweredIds).dedup
  let base := missing.map (fun pid => (pid, missingFine now ev amount members pid))
  checkNoResponseFines now hoursUntil ev members base

/-- `update_fines_for_events`: per event, skip empty / pre-cutoff / unparseable
start timestamps (`afterCutoff` stands for the parsed
`event_date.date() >= cutoff_date.date()` check, false also on parse failure),
then insert each computed fine under key `f"{event_id}_{player_id}"` only if
absent. -/
def updateFinesForEvents (now : String) (afterCutoff : String → Bool)
    (hoursUntil : SpondEvent → ℚ) (events : List SpondEvent)
    (members : List Member) (st : Ledger) : Ledger :=
  events.foldl
    (fun acc ev =>
      if ev.startTimestamp = "" then acc
      else if ¬ afterCutoff ev.startTimestamp then acc
      else
        (calculateEventFines now (hoursUntil ev) ev members).foldl
          (fun a e => addIfAbsent a (ev.id ++ "_" ++ e.1) e.2) acc)
    st

/-- The four scalar fields of `get_fines_summary` (the `player_totals` rollup
is not referenced by any claim and is omitted). -/
structure FinesSummary where
  total_fines : ℕ
  total_amount : ℚ
  paid_fines : ℕ
  unpaid_amount : ℚ
deriving DecidableEq, Repr

/-- `get_fines_summary`, computed from `list(self.fines_data.values())`. -/
def getFinesSummary (st : Ledger) : FinesSummary :=
  let allFines := st.map (fun e => e.2)
  { total_fines := allFines.length
  , total_amount := (allFines.map (fun f => f.fine_amount)).sum
  , paid_fines := (allFines.filter (fun f => f.paid)).length
  , unpaid_amount := ((allFines.filter (fun f => ¬ f.paid)).map (fun f => f.fine_amount)).sum }

/-! ## Match history store (src/views/training_history.py, src/views/team_selector.py) -/

/-- One training match record, with the fields written by `save_pending_match`
and `save_training_match`; `completed_at` is added by `complete_pending_match`. -/
structure TrainingMatch where
  match_id : String
  date : String
  team1 : List String
  team2 : List String
  winning_team : Option ℕ
  created_at : String
  status : String
  completed_at : Option String
deriving DecidableEq, Repr

/-- `complete_pending_match(match_id, winning_team)` — both copies
(training_history.py and team_selector.py) run the same loop: the first match
with the given id and status `"pending"` gets `winning_team`,
`status = "completed"` and a `completed_at` stamp, and `True` is returned;
otherwise `False` and the stored list is left as loaded. -/
def completePendingMatch (now : String) (ms : List TrainingMatch)
    (mid : String) (wt : ℕ) : Bool × List TrainingMatch :=
  match ms with
  | [] => (false, [])
  | m :: rest =>
    if m.match_id = mid ∧ m.status = "pending" then
      let m2 : TrainingMatch :=
        { m with winning_team := some wt
                 status := "completed"
                 completed_at := some now }
      (true, m2 :: rest)
    else
      let r := completePendingMatch now rest mid wt
      (r.1, m :: r.2)

/-- `delete_pending_match(match_id)`: filters out every match with the given
id (no status check appears in the source) and returns `True` exactly when the
list shrank; on `False` nothing is written back. -/
def deletePendingMatch (ms : List TrainingMatch) (mid : String) :
    Bool × List TrainingMatch :=
  let remaining := ms.filter (fun m => m.match_id ≠ mid)
  if remaining.length < ms.length then (true, remaining) else (false, ms)

/-! ## Player statistics engine (src/intelligent_team_generator.py) -/

/-- One entry of the `player_stats` dict. -/
structure PlayerStat where
  wins : ℕ
  losses : ℕ
  matchesPlayed : ℕ
  win_rate : ℚ
deriving DecidableEq, Repr

/-- `self.default_win_rate = 0.5` set in `IntelligentTeamGenerator.__init__`. -/
def defaultWinRate : ℚ := 1/2

/-- The dict literal `{'wins': 0, 'losses': 0, 'matches': 0, 'win_rate': 0.0}`. -/
def zeroStat : PlayerStat := ⟨0, 0, 0, 0⟩

/-- The in-memory `player_stats` dict: name → entry. -/
abbrev Stats := String → Option PlayerStat

/-- `load_training_history` keeps only matches with `status == 'completed'`. -/
def completedOf (history : List TrainingMatch) : List TrainingMatch :=
  history.filter (fun m => m.status = "completed")

/-- Python's `if not winning_team: continue` — `None` and `0` are falsy. -/
def truthyWinner (m : TrainingMatch) : Bool :=
  match m.winning_team with
  | none => false
  | some w => w ≠ 0

/-- `winning_players = team1 if winning_team == 1 else team2`. -/
def winnersOf (m : TrainingMatch) : List String :=
  if m.winning_team = some 1 then m.team1 else m.team2

/-- `losing_players = team2 if winning_team == 1 else team1`. -/
def losersOf (m : TrainingMatch) : List String :=
  if m.winning_team = some 1 then m.team2 else m.team1

/-- `player_stats[player]['wins'] += 1; player_stats[player]['matches'] += 1`
(creating the zero entry first when absent). -/
def bumpWin (f : Stats) (p : String) : Stats :=
  fun q =>
    if q = p then
      let b := (f p).getD zeroStat
      some { b with wins := b.wins + 1, matchesPlayed := b.matchesPlayed + 1 }
    else f q

/-- `player_stats[player]['losses'] += 1; player_stats[player]['matches'] += 1`. -/
def bumpLoss (f : Stats) (p : String) : Stats :=
  fun q =>
    if q = p then
      let b := (f p).getD zeroStat
      some { b with losses := b.losses + 1, matchesPlayed := b.matchesPlayed + 1 }
    else f q

/-- The per-match body of the statistics loop in `calculate_player_statistics`. -/
def applyMatch (f : Stats) (m : TrainingMatch) : Stats :=
  if truthyWinner m then
    (losersOf m).foldl bumpLoss ((winnersOf m).foldl bumpWin f)
  else f

/-- The final win-rate pass of `calculate_player_statistics`. -/
def finalizeStats (f : Stats) : Stats :=
  fun p =>
    (f p).map (fun s =>
      { s with win_rate :=
          if 0 < s.matchesPlayed then (s.wins : ℚ) / (s.matchesPlayed : ℚ) else defaultWinRate })

/-- `calculate_player_statistics`: accumulate over the completed matches,
then compute win rates. -/
def calculatePlayerStatistics (history : List TrainingMatch) : Stats :=
  finalizeStats ((completedOf history).foldl applyMatch (fun _ => none))

/-- `get_player_win_rate`: `self.player_stats.get(player, {}).get('win_rate',
self.default_win_rate)`. -/
def getPlayerWinRate (stats : Stats) (p : String) : ℚ :=
  match stats p with
  | some s => s.win_rate
  | none => defaultWinRate

/-- `calculate_team_strength`: `0.0` for an empty team, else the mean win rate. -/
def calculateTeamStrength (stats : Stats) (team : List String) : ℚ :=
  if team = [] then 0
  else (team.map (getPlayerWinRate stats)).sum / (team.length : ℚ)

/-! ## Team balancer (src/intelligent_team_generator.py) -/

/-- The assignment loop of `generate_balanced_teams_greedy`, walking the
shuffled `players_with_rates` list. `k` is `team_size = num_players // 2`. -/
def greedyLoop (stats : Stats) (k : ℕ) :
    List String → List String → List String → List String × List String
  | [], t1, t2 => (t1, t2)
  | p :: ps, t1, t2 =>
    if k ≤ t1.length ∧ k ≤ t2.length then (t1, t2)
    else if k ≤ t1.length then greedyLoop stats k ps t1 (t2 ++ [p])
    else if k ≤ t2.length then greedyLoop stats k ps (t1 ++ [p]) t2
    else if |calculateTeamStrength stats (t1 ++ [p]) - calculateTeamStrength stats t2| ≤
            |calculateTeamStrength stats (t2 ++ [p]) - calculateTeamStrength stats t1| then
      greedyLoop stats k ps (t1 ++ [p]) t2
    else
      greedyLoop stats k ps t1 (t2 ++ [p])

/-- `generate_balanced_teams_greedy`. The sort followed by `random.shuffle`
amounts to an arbitrary permutation of `players`; the shuffled order is the
`shuffled` argument (theorems constrain it by `shuffled ~ players`). -/
def generateBalancedTeamsGreedy (stats : Stats) (shuffled : List String) :
    List String × List String :=
  if shuffled.length < 2 then (shuffled.take 1, shuffled.drop 1)
  else greedyLoop stats (shuffled.length / 2) shuffled [] []

/-- `team1 = [players[i] for i in team1_indices]`. -/
def optTeam1 (players : List String) (c : List ℕ) : List String :=
  c.filterMap (fun i => players.get? i)

/-- `team2 = [players[i] for i in range(num_players) if i not in team1_indices]`. -/
def optTeam2 (players : List String) (c : List ℕ) : List String :=
  ((List.range players.length).filter (fun i => i ∉ c)).filterMap
    (fun i => players.get? i)

/-- `abs(strength1 - strength2)` for one candidate team1 index set. -/
def candDiff (stats : Stats) (players : List String) (c : List ℕ) : ℚ :=
  |calculateTeamStrength stats (optTeam1 players c) -
   calculateTeamStrength stats (optTeam2 players c)|

/-- The `if difference < best_difference` update; `none` is the initial
`best_difference = float('inf')` state. -/
def stepBest (stats : Stats) (players : List String)
    (best : Option ((List String × List String) × ℚ)) (c : List ℕ) :
    Option ((List String × List String) × ℚ) :=
  match best with
  | none => some ((optTeam1 players c, optTeam2 players c), candDiff stats players c)
  | some (bt, bd) =>
    if candDiff stats players c < bd then
      some ((optTeam1 players c, optTeam2 players c), candDiff stats players c)
    else some (bt, bd)

/-- The candidate loop of `generate_balanced_teams_optimal`, with the
`if difference < 0.05: break` early exit. -/
def searchLoop (stats : Stats) (players : List String) :
    List (List ℕ) → Option ((List String × List String) × ℚ) →
    Option ((List String × List String) × ℚ)
  | [], best => best
  | c :: cs, best =>
    let best' := stepBest stats players best c
    if candDiff stats players c < 1/20 then best'
    else searchLoop stats players cs best'

/-- `list(combinations(range(num_players), team_size))`. -/
def allCombinations (n : ℕ) : List (List ℕ) :=
  (List.range n).sublistsLen (n / 2)

/-- `generate_balanced_teams_optimal` with `max_iterations = 1000`.
`shuffledCombos` is the shuffled `all_combinations` list (theorems constrain it
by a `Perm` hypothesis); `gshuffle` is the player shuffle used by the greedy
fallback paths, which reshuffle internally. -/
def generateBalancedTeamsOptimal (stats : Stats) (players : List String)
    (shuffledCombos : List (List ℕ)) (gshuffle : List String) :
    List String × List String :=
  if players.length < 2 then (players.take 1, players.drop 1)
  else if 16 < players.length then generateBalancedTeamsGreedy stats gshuffle
  else
    let cands := shuffledCombos.take (min 1000 shuffledCombos.length)
    match searchLoop stats players cands none with
    | none => generateBalancedTeamsGreedy stats gshuffle
    | some (bt, _) =>
      if bt.1 = [] ∧ bt.2 = [] then generateBalancedTeamsGreedy stats gshuffle
      else bt

/-- `get_team_balance_info`. -/
structure BalanceInfo where
  team1_strength : ℚ
  team2_strength : ℚ
  strength_difference : ℚ
  balance_percentage : ℚ
  team1_players_stats : List (String × ℚ)
  team2_players_stats : List (String × ℚ)
deriving DecidableEq, Repr

/-- `get_team_balance_info(team1, team2)`. -/
def getTeamBalanceInfo (stats : Stats) (t1 t2 : List String) : BalanceInfo :=
  let s1 := calculateTeamStrength stats t1
  let s2 := calculateTeamStrength stats t2
  { team1_strength := s1
  , team2_strength := s2
  , strength_difference := |s1 - s2|
  , balance_percentage := (1 - |s1 - s2|) * 100
  , team1_players_stats := t1.map (fun p => (p, getPlayerWinRate stats p))
  , team2_players_stats := t2.map (fun p => (p, getPlayerWinRate stats p)) }

/-- `generate_smart_teams(players, algorithm)`: greedy when
`algorithm == "greedy"`, otherwise optimal, plus the balance info. -/
def generateSmartTeams (stats : Stats) (players : List String)
    (algorithm : String) (gshuffle : List String)
    (shuffledCombos : List (List ℕ)) :
    List String × List String × BalanceInfo :=
  let t :=
    if algorithm = "greedy" then generateBalancedTeamsGreedy stats gshuffle
    else generateBalancedTeamsOptimal stats players shuffledCombos gshuffle
  (t.1, t.2, getTeamBalanceInfo stats t.1 t.2)

/-- Elements of a list up to and including the first one satisfying `p`
(spec-side helper describing the early-exit of the optimal search). -/
def takeUntilIncl (p : α → Bool) : List α → List α
  | [] => []
  | a :: as => if p a then [a] else a :: takeUntilIncl p as

/-- The candidates actually evaluated by the optimal search: the shuffled
combination list capped at `max_iterations`, cut at the first candidate whose
strength difference is below 0.05. -/
def evaluatedCands (stats : Stats) (players : List String)
    (shuffledCombos : List (List ℕ)) : List (List ℕ) :=
  takeUntilIncl (fun c => candDiff stats players c < 1/20)
    (shuffledCombos.take (min 1000 shuffledCombos.length))

/-! ## Spec-side derived notions used by the theorems -/

/-- Number of matches in `ms` whose (truthy) winning side contains `p`. -/
def countWinsIn (ms : List TrainingMatch) (p : String) : ℕ :=
  ms.countP (fun m => truthyWinner m && decide (p ∈ winnersOf m))

/-- Number of matches in `ms` whose losing side contains `p`. -/
def countLossesIn (ms : List TrainingMatch) (p : String) : ℕ :=
  ms.countP (fun m => truthyWinner m && decide (p ∈ losersOf m))

/-- Wins of `p` over the completed part of `history`. -/
def specWins (history : List TrainingMatch) (p : String) : ℕ :=
  countWinsIn (completedOf history) p

/-- Losses of `p` over the completed part of `history`. -/
def specLosses (history : List TrainingMatch) (p : String) : ℕ :=
  countLossesIn (completedOf history) p

/-- Add `w` wins and `l` losses to an optional stats entry, creating the zero
entry when touched for the first time (mirrors the dict accumulation). -/
def addCounts (o : Option PlayerStat) (w l : ℕ) : Option PlayerStat :=
  if w + l = 0 then o
  else
    some { wins := (o.getD zeroStat).wins + w
           losses := (o.getD zeroStat).losses + l
           matchesPlayed := (o.getD zeroStat).matchesPlayed + w + l
           win_rate := (o.getD zeroStat).win_rate }

/-! # Theorems -/

/-! ## Association-list lookup helpers -/

theorem lookup_cons_self {β : Type} (k : String) (v : β) (rest : List (String × β)) :
    List.lookup k ((k, v) :: rest) = some v := by
  simp [List.lookup]

theorem lookup_cons_ne {β : Type} {k k2 : String} (h : k ≠ k2) (v : β)
    (rest : List (String × β)) :
    List.lookup k ((k2, v) :: rest) = List.lookup k rest := by
  simp [List.lookup, beq_eq_false_iff_ne.mpr h]

theorem lookup_eq_none_iff (st : Ledger) (k : String) :
    List.lookup k st = none ↔ ∀ e ∈ st, e.1 ≠ k := by
  induction st with
  | nil => simp
  | cons e rest ih =>
    obtain ⟨k2, v⟩ := e
    by_cases h : k = k2
    · subst h
      rw [lookup_cons_self]
      simp
    · rw [lookup_cons_ne h, ih]
      constructor
      · intro hall e2 he2
        rcases List.mem_cons.mp he2 with rfl | he2
        · exact fun h2 => h h2.symm
        · exact hall e2 he2
      · intro hall e2 he2
        exact hall e2 (List.mem_cons_of_mem _ he2)

theorem lookup_append_of_none {st : Ledger} {k : String} (h : List.lookup k st = none)
    (l2 : Ledger) : List.lookup k (st ++ l2) = List.lookup k l2 := by
  induction st with
  | nil => simp
  | cons e rest ih =>
    obtain ⟨k2, v⟩ := e
    by_cases hk : k = k2
    · subst hk
      rw [lookup_cons_self] at h
      exact absurd h (by simp)
    · rw [lookup_cons_ne hk] at h
      rw [List.cons_append, lookup_cons_ne hk]
      exact ih h

/-! ## C5 — idempotent ledger ingestion -/

/-- C5: ledger ingestion is idempotent. Inserting under a present key leaves
the ledger unchanged; inserting twice under a fresh key (same or different
record content) stores exactly one record under that key, equal to the first
value inserted. -/
theorem ledger_add_if_absent_idempotent (st : Ledger) (k : String) (r r2 : FineRecord) :
    ((List.lookup k st).isSome → addIfAbsent st k r = st) ∧
    (List.lookup k st = none →
      addIfAbsent (addIfAbsent st k r) k r2 = addIfAbsent st k r ∧
      List.lookup k (addIfAbsent st k r) = some r ∧
      (addIfAbsent st k r).countP (fun e => e.1 = k) = 1) := by
  constructor
  · intro hsome
    unfold addIfAbsent
    rw [if_pos hsome]
  · intro h
    have hnot : ¬ (List.lookup k st).isSome := by simp [h]
    have hst1 : addIfAbsent st k r = st ++ [(k, r)] := by
      unfold addIfAbsent
      rw [if_neg hnot]
    have hl : List.lookup k (addIfAbsent st k r) = some r := by
      rw [hst1, lookup_append_of_none h, lookup_cons_self]
    have hsome1 : (List.lookup k (addIfAbsent st k r)).isSome := by
      rw [hl]
      rfl
    refine ⟨?_, hl, ?_⟩
    · show (if (List.lookup k (addIfAbsent st k r)).isSome then addIfAbsent st k r
        else addIfAbsent st k r ++ [(k, r2)]) = addIfAbsent st k r
      rw [if_pos hsome1]
    · have hcount : st.countP (fun e => decide (e.1 = k)) = 0 := by
        rw [List.countP_eq_zero]
        intro e he
        simpa using (lookup_eq_none_iff st k).mp h e he
      rw [hst1, List.countP_append, hcount]
      simp

/-- C5 witness: two inserts under the key `"e1_p1"` on the empty ledger, with
different record contents, keep exactly the first record. -/
theorem ledger_add_if_absent_idempotent_witness :
    List.lookup "e1_p1" ([] : Ledger) = none ∧
    (addIfAbsent (addIfAbsent [] "e1_p1"
        ⟨"p1", "P One", "e1", "E", "d", "missing_event", 50, false, "c"⟩) "e1_p1"
        ⟨"p1", "P One", "e1", "E", "d", "missing_event", 100, true, "c2"⟩ =
      addIfAbsent [] "e1_p1"
        ⟨"p1", "P One", "e1", "E", "d", "missing_event", 50, false, "c"⟩ ∧
      List.lookup "e1_p1" (addIfAbsent [] "e1_p1"
        ⟨"p1", "P One", "e1", "E", "d", "missing_event", 50, false, "c"⟩) =
        some ⟨"p1", "P One", "e1", "E", "d", "missing_event", 50, false, "c"⟩ ∧
      (addIfAbsent [] "e1_p1"
        ⟨"p1", "P One", "e1", "E", "d", "missing_event", 50, false, "c"⟩).countP
          (fun e => e.1 = "e1_p1") = 1) :=
  ⟨rfl, (ledger_add_if_absent_idempotent [] "e1_p1"
      ⟨"p1", "P One", "e1", "E", "d", "missing_event", 50, false, "c"⟩
      ⟨"p1", "P One", "e1", "E", "d", "missing_event", 100, true, "c2"⟩).2 rfl⟩

/-! ## C10 — summary derived purely from stored records -/

/-- C10: `get_fines_summary` is derived purely from the stored records —
count, amount sum, paid count, unpaid amount sum — and on the two-record
scenario ledger returns (2, 150, 1, 50). -/
theorem fines_summary_derived (st : Ledger) :
    (getFinesSummary st).total_fines = st.length ∧
    (getFinesSummary st).total_amount = (st.map (fun e => e.2.fine_amount)).sum ∧
    (getFinesSummary st).paid_fines = st.countP (fun e => e.2.paid) ∧
    (getFinesSummary st).unpaid_amount =
      ((st.filter (fun e => e.2.paid = false)).map (fun e => e.2.fine_amount)).sum ∧
    getFinesSummary
      [("A", ⟨"A", "A", "e1", "E", "d", "missing_event", 50, false, "c"⟩),
       ("B", ⟨"B", "B", "e1", "E", "d", "missing_event", 100, true, "c"⟩)] =
      ⟨2, 150, 1, 50⟩ := by
  refine ⟨?_, ?_, ?_, ?_, ?_⟩
  · simp [getFinesSummary]
  · simp only [getFinesSummary, List.map_map]
    rfl
  · simp only [getFinesSummary, ← List.countP_eq_length_filter, List.countP_map]
    rfl
  · simp only [getFinesSummary, List.filter_map, List.map_map]
    have hfil : List.filter ((fun f => ¬ f.paid) ∘ fun e => e.2) st =
        List.filter (fun e => e.2.paid = false) st := by
      apply List.filter_congr
      intro e _
      simp [Function.comp]
    rw [hfil]
    rfl
  · norm_num [getFinesSummary]

/-! ## C4 — the 24-hour no-response branch is unreachable -/

theorem lookup_map_self {β : Type} (f : String → β) (l : List String) (pid : String)
    (h : pid ∈ l) : List.lookup pid (l.map (fun x => (x, f x))) = some (f pid) := by
  induction l with
  | nil => simp at h
  | cons a rest ih =>
    by_cases ha : pid = a
    · subst ha
      rw [List.map_cons, lookup_cons_self]
    · rcases List.mem_cons.mp h with h2 | h2
      · exact absurd h2 ha
      · rw [List.map_cons, lookup_cons_ne ha]
        exact ih h2

/-- `_check_no_response_fines` changes nothing when every unanswered id is
already keyed in `event_fines` — which `calculate_event_fines` guarantees. -/
theorem checkNoResponseFines_id (now : String) (hoursUntil : ℚ) (ev : SpondEvent)
    (members : List Member) (fines : List (String × FineRecord))
    (h : ∀ pid ∈ ev.unansweredIds, (List.lookup pid fines).isSome) :
    checkNoResponseFines now hoursUntil ev members fines = fines := by
  unfold checkNoResponseFines
  split
  · rfl
  · split
    · rfl
    · induction members with
      | nil => rfl
      | cons m rest ih =>
        have hstep :
            (if (List.lookup m.id fines).isSome then fines
             else if m.id ∈ ev.unansweredIds then
               fines ++ [(m.id, noResponseFine now ev m)]
             else fines) = fines := by
          by_cases h1 : (List.lookup m.id fines).isSome
          · simp [h1]
          · by_cases h2 : m.id ∈ ev.unansweredIds
            · exact absurd (h m.id h2) h1
            · simp [h1, h2]
        simpa [List.foldl_cons, hstep] using ih

/-- `calculate_event_fines` reduces to its `missing_event` base list:
the no-response pass adds nothing. -/
theorem calculateEventFines_eq_base (now : String) (hoursUntil : ℚ) (ev : SpondEvent)
    (members : List Member) :
    calculateEventFines now hoursUntil ev members =
      ((ev.declinedIds ++ ev.unansweredIds).dedup).map
        (fun pid => (pid, missingFine now ev
          (if isMatchEvent ev.heading then FINE_MISSING_MATCH else FINE_MISSING_TRAINING)
          members pid)) := by
  unfold calculateEventFines
  apply checkNoResponseFines_id
  intro pid hpid
  have hmem : pid ∈ (ev.declinedIds ++ ev.unansweredIds).dedup := by
    rw [List.mem_dedup]
    exact List.mem_append_right _ hpid
  rw [lookup_map_self _ _ _ hmem]
  rfl

/-- C4: the per-event fine calculation never produces a `no_response_24h`
fine: every unanswered player already holds a `missing_event` fine keyed by
their player id, so the 24-hour branch is unreachable and only
`missing_event` fines are returned to the sync pass. -/
theorem no_response_branch_unreachable (now : String) (hoursUntil : ℚ)
    (ev : SpondEvent) (members : List Member) :
    (∀ pid ∈ ev.unansweredIds, ∃ r,
      List.lookup pid (calculateEventFines now hoursUntil ev members) = some r ∧
      r.fine_type = "missing_event" ∧ r.player_id = pid) ∧
    (∀ e ∈ calculateEventFines now hoursUntil ev members,
      e.2.fine_type = "missing_event" ∧ e.2.fine_type ≠ "no_response_24h") := by
  rw [calculateEventFines_eq_base]
  constructor
  · intro pid hpid
    have hmem : pid ∈ (ev.declinedIds ++ ev.unansweredIds).dedup := by
      rw [List.mem_dedup]
      exact List.mem_append_right _ hpid
    exact ⟨_, lookup_map_self _ _ _ hmem, rfl, rfl⟩
  · intro e he
    rcases List.mem_map.mp he with ⟨pid, _, rfl⟩
    exact ⟨rfl, by simp [missingFine]⟩

/-- C4 witness: a concrete event with one declined and one unanswered player,
inside the 24-hour window. -/
theorem no_response_branch_unreachable_witness :
    "u1" ∈ (SpondEvent.mk "e1" "Kamp" "2025-10-01" ["a1"] ["d1"] ["u1"]).unansweredIds ∧
    (∃ r, List.lookup "u1" (calculateEventFines "now" 10
        (SpondEvent.mk "e1" "Kamp" "2025-10-01" ["a1"] ["d1"] ["u1"])
        [⟨"u1", "U", "One"⟩]) = some r ∧
      r.fine_type = "missing_event" ∧ r.player_id = "u1") :=
  ⟨by decide,
   (no_response_branch_unreachable "now" 10
     (SpondEvent.mk "e1" "Kamp" "2025-10-01" ["a1"] ["d1"] ["u1"])
     [⟨"u1", "U", "One"⟩]).1 "u1" (by decide)⟩

/-! ## C2 — deleting matches -/

/-- C2 counterexample: deleting a match whose stored status is `"completed"`
returns `true` and removes it from the stored list, contradicting the claim
that it returns `false` and leaves the list unchanged. -/
theorem delete_completed_match_cex :
    (deletePendingMatch
      [⟨"m1", "d1", ["a"], ["b"], some 1, "c1", "completed", some "t1"⟩] "m1").1 = true ∧
    (deletePendingMatch
      [⟨"m1", "d1", ["a"], ["b"], some 1, "c1", "completed", some "t1"⟩] "m1").2 ≠
      [⟨"m1", "d1", ["a"], ["b"], some 1, "c1", "completed", some "t1"⟩] := by
  refine ⟨rfl, ?_⟩
  intro h
  have := congrArg List.length h
  simp [deletePendingMatch] at this

/-- C2 amended: `delete_pending_match` removes every match with the given
match id regardless of its status, returning `true` exactly when at least one
such match was stored; hence deleting a completed match succeeds and removes
it, deleting an unknown id returns `false` leaving the list unchanged, and
deleting the same match twice succeeds the first time and fails the second. -/
theorem delete_match_amended (ms : List TrainingMatch) (mid : String) :
    ((deletePendingMatch ms mid).1 = true ↔ ∃ m ∈ ms, m.match_id = mid) ∧
    (deletePendingMatch ms mid).2 = ms.filter (fun m => m.match_id ≠ mid) ∧
    (deletePendingMatch (deletePendingMatch ms mid).2 mid).1 = false := by
  have hfl : ∀ l : List TrainingMatch,
      ((l.filter (fun m => m.match_id ≠ mid)).length < l.length ↔
        ∃ m ∈ l, m.match_id = mid) := by
    intro l
    rw [List.length_filter_lt_length_iff_exists]
    constructor
    · rintro ⟨m, hm, h2⟩
      exact ⟨m, hm, by simpa using h2⟩
    · rintro ⟨m, hm, h2⟩
      exact ⟨m, hm, by simpa using h2⟩
  have hsnd : (deletePendingMatch ms mid).2 = ms.filter (fun m => m.match_id ≠ mid) := by
    unfold deletePendingMatch
    by_cases h : (ms.filter (fun m => m.match_id ≠ mid)).length < ms.length
    · rw [if_pos h]
    · rw [if_neg h]
      have hno : ¬ ∃ m ∈ ms, m.match_id = mid := fun hex => h ((hfl ms).mpr hex)
      symm
      apply List.filter_eq_self.mpr
      intro m hm
      simp only [ne_eq, decide_eq_true_eq]
      intro hc
      exact hno ⟨m, hm, hc⟩
  refine ⟨?_, hsnd, ?_⟩
  · unfold deletePendingMatch
    by_cases h : (ms.filter (fun m => m.match_id ≠ mid)).length < ms.length
    · rw [if_pos h]
      simpa using (hfl ms).mp h
    · rw [if_neg h]
      simp only [Bool.false_eq_true, false_iff]
      intro hex
      exact h ((hfl ms).mpr hex)
  · rw [hsnd]
    unfold deletePendingMatch
    have hnone : ¬ ∃ m ∈ ms.filter (fun m => m.match_id ≠ mid), m.match_id = mid := by
      rintro ⟨m, hm, hid⟩
      have := List.of_mem_filter hm
      simp [hid] at this
    have : ¬ ((ms.filter (fun m => m.match_id ≠ mid)).filter
        (fun m => m.match_id ≠ mid)).length < (ms.filter (fun m => m.match_id ≠ mid)).length := by
      intro hlt
      exact hnone ((hfl _).mp hlt)
    rw [if_neg this]

/-! ## C6 — completing matches -/

/-- C6: completing a match. If no stored match has the given id with status
pending (unknown id, or already completed), the call returns `false` and
leaves the stored list unchanged. If the first stored match with the given
pending id is `m`, the call returns `true` and replaces `m` by `m` with
`status = "completed"`, the given winner and a `completed_at` stamp. A second
completion attempt on the same id then returns `false` and leaves the stored
list — including the stored winning team — unchanged. -/
theorem complete_match_lifecycle (now now2 : String) (ms : List TrainingMatch)
    (mid : String) (wt wt2 : ℕ) :
    ((∀ m ∈ ms, ¬(m.match_id = mid ∧ m.status = "pending")) →
      completePendingMatch now ms mid wt = (false, ms)) ∧
    (∀ pre m post, ms = pre ++ m :: post → m.match_id = mid → m.status = "pending" →
      (∀ m2 ∈ pre, ¬(m2.match_id = mid ∧ m2.status = "pending")) →
      completePendingMatch now ms mid wt =
        (true, pre ++ { m with winning_team := some wt
                               status := "completed"
                               completed_at := some now } :: post)) ∧
    (∀ pre m post, ms = pre ++ m :: post → m.match_id = mid → m.status = "pending" →
      (∀ m2 ∈ pre, ¬(m2.match_id = mid ∧ m2.status = "pending")) →
      (∀ m2 ∈ post, m2.match_id ≠ mid) →
      completePendingMatch now2 (completePendingMatch now ms mid wt).2 mid wt2 =
        (false, (completePendingMatch now ms mid wt).2)) := by
  have hfail : ∀ l : List TrainingMatch, ∀ t : String,
      (∀ m ∈ l, ¬(m.match_id = mid ∧ m.status = "pending")) →
      ∀ w : ℕ, completePendingMatch t l mid w = (false, l) := by
    intro l t hl w
    induction l with
    | nil => rfl
    | cons m rest ih =>
      have hm : ¬(m.match_id = mid ∧ m.status = "pending") :=
        hl m (List.mem_cons_self m rest)
      have hrest := ih (fun m2 hm2 => hl m2 (List.mem_cons_of_mem m hm2))
      unfold completePendingMatch
      rw [if_neg hm, hrest]
  have hsucc : ∀ (pre : List TrainingMatch) (m : TrainingMatch) post,
      m.match_id = mid → m.status = "pending" →
      (∀ m2 ∈ pre, ¬(m2.match_id = mid ∧ m2.status = "pending")) →
      completePendingMatch now (pre ++ m :: post) mid wt =
        (true, pre ++ { m with winning_team := some wt
                               status := "completed"
                               completed_at := some now } :: post) := by
    intro pre
    induction pre with
    | nil =>
      intro m post hid hst _
      simp only [List.nil_append]
      unfold completePendingMatch
      rw [if_pos ⟨hid, hst⟩]
    | cons m0 pre0 ih =>
      intro m post hid hst hpre
      have hm0 : ¬(m0.match_id = mid ∧ m0.status = "pending") :=
        hpre m0 (List.mem_cons_self m0 pre0)
      have hrec := ih m post hid hst
        (fun m2 hm2 => hpre m2 (List.mem_cons_of_mem m0 hm2))
      show (if m0.match_id = mid ∧ m0.status = "pending" then _ else
        (let r := completePendingMatch now (pre0 ++ m :: post) mid wt
         (r.1, m0 :: r.2))) = _
      rw [if_neg hm0]
      simp only [hrec, List.cons_append]
  have hsucc2 : ∀ (pre : List TrainingMatch) (m : TrainingMatch) post,
      ms = pre ++ m :: post → m.match_id = mid → m.status = "pending" →
      (∀ m2 ∈ pre, ¬(m2.match_id = mid ∧ m2.status = "pending")) →
      completePendingMatch now ms mid wt =
        (true, pre ++ { m with winning_team := some wt
                               status := "completed"
                               completed_at := some now } :: post) := by
    intro pre m post hms hid hst hpre
    subst hms
    exact hsucc pre m post hid hst hpre
  refine ⟨fun h => hfail ms now h wt, hsucc2, ?_⟩
  intro pre m post hms hid hst hpre hpost
  rw [hsucc2 pre m post hms hid hst hpre]
  apply hfail
  intro m2 hm2
  simp only [List.mem_append, List.mem_cons] at hm2
  rcases hm2 with hm2 | rfl | hm2
  · exact hpre m2 hm2
  · rintro ⟨-, habs⟩
    simp at habs
  · rintro ⟨habs, -⟩
    exact hpost m2 hm2 habs

/-- C6 witness: a concrete pending match is completed once (successfully) and
a second attempt fails, leaving the stored winner intact. -/
theorem complete_match_lifecycle_witness :
    completePendingMatch "T1" [⟨"m1", "d", ["a"], ["b"], none, "c", "pending", none⟩]
        "m1" 2 =
      (true, [⟨"m1", "d", ["a"], ["b"], some 2, "c", "completed", some "T1"⟩]) ∧
    completePendingMatch "T2"
        [⟨"m1", "d", ["a"], ["b"], some 2, "c", "completed", some "T1"⟩] "m1" 1 =
      (false, [⟨"m1", "d", ["a"], ["b"], some 2, "c", "completed", some "T1"⟩]) := by
  have h := complete_match_lifecycle "T1" "T2"
    [⟨"m1", "d", ["a"], ["b"], none, "c", "pending", none⟩] "m1" 2 1
  constructor
  · exact h.2.1 [] ⟨"m1", "d", ["a"], ["b"], none, "c", "pending", none⟩ [] rfl rfl rfl
      (by intro m2 hm2; simp at hm2)
  · have h3 := h.2.2 [] ⟨"m1", "d", ["a"], ["b"], none, "c", "pending", none⟩ [] rfl rfl rfl
      (by intro m2 hm2; simp at hm2) (by intro m2 hm2; simp at hm2)
    have h2 := h.2.1 [] ⟨"m1", "d", ["a"], ["b"], none, "c", "pending", none⟩ [] rfl rfl rfl
      (by intro m2 hm2; simp at hm2)
    rw [h2] at h3
    exact h3

/-! ## C3 — keys stored by a sync pass -/

theorem calcFines_fields (now : String) (hoursUntil : ℚ) (ev : SpondEvent)
    (members : List Member) :
    ∀ x ∈ calculateEventFines now hoursUntil ev members,
      x.2.fine_type = "missing_event" ∧ x.2.event_id = ev.id ∧ x.2.player_id = x.1 := by
  rw [calculateEventFines_eq_base]
  intro x hx
  rcases List.mem_map.mp hx with ⟨pid, _, rfl⟩
  exact ⟨rfl, rfl, rfl⟩

theorem mem_addIfAbsent {st : Ledger} {k : String} {r : FineRecord}
    {e : String × FineRecord} (h : e ∈ addIfAbsent st k r) : e ∈ st ∨ e = (k, r) := by
  unfold addIfAbsent at h
  by_cases hs : (List.lookup k st).isSome
  · rw [if_pos hs] at h
    exact Or.inl h
  · rw [if_neg hs] at h
    rcases List.mem_append.mp h with h | h
    · exact Or.inl h
    · exact Or.inr (List.mem_singleton.mp h)

theorem mem_foldl_addIfAbsent (key : String → String)
    (fines : List (String × FineRecord)) :
    ∀ (acc : Ledger) (e : String × FineRecord),
      e ∈ fines.foldl (fun a x => addIfAbsent a (key x.1) x.2) acc →
      e ∈ acc ∨ ∃ x ∈ fines, e = (key x.1, x.2) := by
  induction fines with
  | nil =>
    intro acc e he
    exact Or.inl he
  | cons x0 rest ih =>
    intro acc e he
    rw [List.foldl_cons] at he
    rcases ih (addIfAbsent acc (key x0.1) x0.2) e he with h | ⟨x, hx, rfl⟩
    · rcases mem_addIfAbsent h with h | h
      · exact Or.inl h
      · exact Or.inr ⟨x0, List.mem_cons_self x0 rest, h⟩
    · exact Or.inr ⟨x, List.mem_cons_of_mem x0 hx, rfl⟩

theorem mem_updateFines (now : String) (afterCutoff : String → Bool)
    (hoursUntil : SpondEvent → ℚ) (events : List SpondEvent) (members : List Member) :
    ∀ (st : Ledger) (e : String × FineRecord),
      e ∈ updateFinesForEvents now afterCutoff hoursUntil events members st →
      e ∈ st ∨ (e.2.fine_type = "missing_event" ∧
        e.1 = e.2.event_id ++ "_" ++ e.2.player_id) := by
  induction events with
  | nil =>
    intro st e he
    exact Or.inl he
  | cons ev evs ih =>
    intro st e he
    unfold updateFinesForEvents at he
    rw [List.foldl_cons] at he
    have he2 := ih _ e he
    rcases he2 with h | h
    · by_cases h1 : ev.startTimestamp = ""
      · rw [if_pos h1] at h
        exact Or.inl h
      · rw [if_neg h1] at h
        by_cases h2 : ¬ afterCutoff ev.startTimestamp
        · rw [if_pos h2] at h
          exact Or.inl h
        · rw [if_neg h2] at h
          rcases mem_foldl_addIfAbsent _ _ st e h with h | ⟨x, hx, rfl⟩
          · exact Or.inl h
          · obtain ⟨hft, hev, hpid⟩ := calcFines_fields now (hoursUntil ev) ev members x hx
            refine Or.inr ⟨hft, ?_⟩
            rw [hev, hpid]
    · exact Or.inr h

theorem keys_nodup_addIfAbsent {st : Ledger} {k : String} {r : FineRecord}
    (h : (st.map Prod.fst).Nodup) : ((addIfAbsent st k r).map Prod.fst).Nodup := by
  unfold addIfAbsent
  by_cases hs : (List.lookup k st).isSome
  · rw [if_pos hs]
    exact h
  · rw [if_neg hs]
    have hnone : List.lookup k st = none := by
      cases hlk : List.lookup k st with
      | none => rfl
      | some v => rw [hlk] at hs; exact absurd rfl hs
    have hkn : k ∉ st.map Prod.fst := by
      intro hk
      rcases List.mem_map.mp hk with ⟨e, he, hek⟩
      exact (lookup_eq_none_iff st k).mp hnone e he hek
    rw [List.map_append]
    simp only [List.map_cons, List.map_nil]
    rw [List.nodup_append]
    refine ⟨h, List.nodup_singleton k, ?_⟩
    intro a ha hb
    rcases List.mem_singleton.mp hb with rfl
    exact hkn ha

theorem keys_nodup_foldl_addIfAbsent (key : String → String)
    (fines : List (String × FineRecord)) :
    ∀ (acc : Ledger), (acc.map Prod.fst).Nodup →
      ((fines.foldl (fun a x => addIfAbsent a (key x.1) x.2) acc).map Prod.fst).Nodup := by
  induction fines with
  | nil =>
    intro acc h
    exact h
  | cons x0 rest ih =>
    intro acc h
    rw [List.foldl_cons]
    exact ih _ (keys_nodup_addIfAbsent h)

theorem keys_nodup_updateFines (now : String) (afterCutoff : String → Bool)
    (hoursUntil : SpondEvent → ℚ) (events : List SpondEvent) (members : List Member) :
    ∀ (st : Ledger), (st.map Prod.fst).Nodup →
      ((updateFinesForEvents now afterCutoff hoursUntil events members st).map
        Prod.fst).Nodup := by
  induction events with
  | nil =>
    intro st h
    exact h
  | cons ev evs ih =>
    intro st h
    unfold updateFinesForEvents
    rw [List.foldl_cons]
    apply ih
    by_cases h1 : ev.startTimestamp = ""
    · rw [if_pos h1]
      exact h
    · rw [if_neg h1]
      by_cases h2 : ¬ afterCutoff ev.startTimestamp
      · rw [if_pos h2]
        exact h
      · rw [if_neg h2]
        exact keys_nodup_foldl_addIfAbsent _ _ st h

theorem keys_nodup_unique {l : Ledger} (h : (l.map Prod.fst).Nodup)
    {e1 e2 : String × FineRecord} (h1 : e1 ∈ l) (h2 : e2 ∈ l) (hk : e1.1 = e2.1) :
    e1 = e2 := by
  induction l with
  | nil => simp at h1
  | cons a rest ih =>
    rw [List.map_cons, List.nodup_cons] at h
    rcases List.mem_cons.mp h1 with he1 | he1
    · rcases List.mem_cons.mp h2 with he2 | he2
      · rw [he1, he2]
      · have hm : e2.1 ∈ rest.map Prod.fst := List.mem_map_of_mem Prod.fst he2
        rw [← hk, he1] at hm
        exact absurd hm h.1
    · rcases List.mem_cons.mp h2 with he2 | he2
      · have hm : e1.1 ∈ rest.map Prod.fst := List.mem_map_of_mem Prod.fst he1
        rw [hk, he2] at hm
        exact absurd hm h.1
      · exact ih h.2 he1 he2

/-- C3: every fine stored by a sync pass has fine type `missing_event` and key
`event_id ++ "_" ++ player_id`; hence (vacuously) every stored
`no_response_24h` fine carries the `_no_response` suffix, and a ledger built
from empty by a sync pass holds at most one record per
(event, player, fine type). -/
theorem no_response_fine_key_suffix (now : String) (afterCutoff : String → Bool)
    (hoursUntil : SpondEvent → ℚ) (events : List SpondEvent) (members : List Member)
    (st : Ledger) :
    (∀ e, e ∈ updateFinesForEvents now afterCutoff hoursUntil events members st →
      e ∉ st →
      ((e.2.fine_type = "no_response_24h" → e.1.endsWith "_no_response" = true) ∧
       e.2.fine_type = "missing_event" ∧
       e.1 = e.2.event_id ++ "_" ++ e.2.player_id)) ∧
    (st = [] →
      ∀ e1 e2, e1 ∈ updateFinesForEvents now afterCutoff hoursUntil events members st →
        e2 ∈ updateFinesForEvents now afterCutoff hoursUntil events members st →
        e1.2.event_id = e2.2.event_id → e1.2.player_id = e2.2.player_id →
        e1.2.fine_type = e2.2.fine_type → e1 = e2) := by
  constructor
  · intro e he hnot
    rcases mem_updateFines now afterCutoff hoursUntil events members st e he with h | h
    · exact absurd h hnot
    · refine ⟨?_, h⟩
      intro habs
      rw [h.1] at habs
      simp at habs
  · rintro rfl e1 e2 h1 h2 hev hpid _
    have hq1 := mem_updateFines now afterCutoff hoursUntil events members [] e1 h1
    have hq2 := mem_updateFines now afterCutoff hoursUntil events members [] e2 h2
    simp only [List.not_mem_nil, false_or] at hq1 hq2
    have hnd := keys_nodup_updateFines now afterCutoff hoursUntil events members []
      (by simp)
    apply keys_nodup_unique hnd h1 h2
    rw [hq1.2, hq2.2, hev, hpid]

/-- C3 witness: a single sync pass over one post-cutoff event with one
declined member, from the empty ledger. -/
theorem no_response_fine_key_suffix_witness :
    (("e1" ++ "_" ++ "p1",
      missingFine "now" ⟨"e1", "Traening", "2025-10-02", [], ["p1"], []⟩
        (if isMatchEvent "Traening" then FINE_MISSING_MATCH else FINE_MISSING_TRAINING)
        [⟨"p1", "P", "One"⟩] "p1") ∈
      updateFinesForEvents "now" (fun _ => true) (fun _ => 100)
        [⟨"e1", "Traening", "2025-10-02", [], ["p1"], []⟩] [⟨"p1", "P", "One"⟩] []) ∧
    (missingFine "now" ⟨"e1", "Traening", "2025-10-02", [], ["p1"], []⟩
        (if isMatchEvent "Traening" then FINE_MISSING_MATCH else FINE_MISSING_TRAINING)
        [⟨"p1", "P", "One"⟩] "p1").fine_type = "missing_event" ∧
    "e1" ++ "_" ++ "p1" =
      (missingFine "now" ⟨"e1", "Traening", "2025-10-02", [], ["p1"], []⟩
        (if isMatchEvent "Traening" then FINE_MISSING_MATCH else FINE_MISSING_TRAINING)
        [⟨"p1", "P", "One"⟩] "p1").event_id ++ "_" ++
      (missingFine "now" ⟨"e1", "Traening", "2025-10-02", [], ["p1"], []⟩
        (if isMatchEvent "Traening" then FINE_MISSING_MATCH else FINE_MISSING_TRAINING)
        [⟨"p1", "P", "One"⟩] "p1").player_id := by
  have hmem : (("e1" ++ "_" ++ "p1",
      missingFine "now" ⟨"e1", "Traening", "2025-10-02", [], ["p1"], []⟩
        (if isMatchEvent "Traening" then FINE_MISSING_MATCH else FINE_MISSING_TRAINING)
        [⟨"p1", "P", "One"⟩] "p1") ∈
      updateFinesForEvents "now" (fun _ => true) (fun _ => 100)
        [⟨"e1", "Traening", "2025-10-02", [], ["p1"], []⟩] [⟨"p1", "P", "One"⟩] []) := by
    have hres : updateFinesForEvents "now" (fun _ => true) (fun _ => 100)
        [⟨"e1", "Traening", "2025-10-02", [], ["p1"], []⟩] [⟨"p1", "P", "One"⟩] [] =
        [("e1" ++ "_" ++ "p1",
          missingFine "now" ⟨"e1", "Traening", "2025-10-02", [], ["p1"], []⟩
            (if isMatchEvent "Traening" then FINE_MISSING_MATCH else FINE_MISSING_TRAINING)
            [⟨"p1", "P", "One"⟩] "p1")] := by rfl
    rw [hres]
    exact List.mem_singleton_self _
  have h := (no_response_fine_key_suffix "now" (fun _ => true) (fun _ => 100)
    [⟨"e1", "Traening", "2025-10-02", [], ["p1"], []⟩] [⟨"p1", "P", "One"⟩] []).1
    _ hmem (by simp)
  exact ⟨hmem, h.2.1, h.2.2⟩

/-- C2 witness for the amended deletion behaviour: concrete double delete. -/
theorem delete_match_amended_witness :
    (deletePendingMatch (deletePendingMatch
      [⟨"m1", "d", ["a"], ["b"], none, "c", "pending", none⟩] "m1").2 "m1").1 = false :=
  (delete_match_amended
    [⟨"m1", "d", ["a"], ["b"], none, "c", "pending", none⟩] "m1").2.2

/-! ## Statistics engine lemmas -/

theorem foldl_bumpWin_not_mem (team : List String) (f : Stats) (p : String)
    (h : p ∉ team) : (team.foldl bumpWin f) p = f p := by
  induction team generalizing f with
  | nil => rfl
  | cons q rest ih =>
    rw [List.foldl_cons]
    have hq : p ≠ q := fun hpq => h (hpq ▸ List.mem_cons_self q rest)
    rw [ih (bumpWin f q) (fun hm => h (List.mem_cons_of_mem q hm))]
    simp [bumpWin, hq]

theorem foldl_bumpLoss_not_mem (team : List String) (f : Stats) (p : String)
    (h : p ∉ team) : (team.foldl bumpLoss f) p = f p := by
  induction team generalizing f with
  | nil => rfl
  | cons q rest ih =>
    rw [List.foldl_cons]
    have hq : p ≠ q := fun hpq => h (hpq ▸ List.mem_cons_self q rest)
    rw [ih (bumpLoss f q) (fun hm => h (List.mem_cons_of_mem q hm))]
    simp [bumpLoss, hq]

theorem foldl_bumpWin_mem (team : List String) (f : Stats) (p : String)
    (hnd : team.Nodup) (h : p ∈ team) :
    (team.foldl bumpWin f) p =
      some { (f p).getD zeroStat with
             wins := ((f p).getD zeroStat).wins + 1
             matchesPlayed := ((f p).getD zeroStat).matchesPlayed + 1 } := by
  induction team generalizing f with
  | nil => simp at h
  | cons q rest ih =>
    rw [List.foldl_cons]
    rw [List.nodup_cons] at hnd
    by_cases hpq : p = q
    · subst hpq
      rw [foldl_bumpWin_not_mem rest (bumpWin f p) p hnd.1]
      simp [bumpWin]
    · have hp : p ∈ rest := by
        rcases List.mem_cons.mp h with h2 | h2
        · exact absurd h2 hpq
        · exact h2
      rw [ih (bumpWin f q) hnd.2 hp]
      have hfix : (bumpWin f q) p = f p := by simp [bumpWin, hpq]
      rw [hfix]

theorem foldl_bumpLoss_mem (team : List String) (f : Stats) (p : String)
    (hnd : team.Nodup) (h : p ∈ team) :
    (team.foldl bumpLoss f) p =
      some { (f p).getD zeroStat with
             losses := ((f p).getD zeroStat).losses + 1
             matchesPlayed := ((f p).getD zeroStat).matchesPlayed + 1 } := by
  induction team generalizing f with
  | nil => simp at h
  | cons q rest ih =>
    rw [List.foldl_cons]
    rw [List.nodup_cons] at hnd
    by_cases hpq : p = q
    · subst hpq
      rw [foldl_bumpLoss_not_mem rest (bumpLoss f p) p hnd.1]
      simp [bumpLoss]
    · have hp : p ∈ rest := by
        rcases List.mem_cons.mp h with h2 | h2
        · exact absurd h2 hpq
        · exact h2
      rw [ih (bumpLoss f q) hnd.2 hp]
      have hfix : (bumpLoss f q) p = f p := by simp [bumpLoss, hpq]
      rw [hfix]

theorem applyMatch_apply (f : Stats) (m : TrainingMatch) (p : String)
    (h1 : m.team1.Nodup) (h2 : m.team2.Nodup) (hd : ∀ x ∈ m.team1, x ∉ m.team2) :
    applyMatch f m p =
      addCounts (f p) (if truthyWinner m ∧ p ∈ winnersOf m then 1 else 0)
        (if truthyWinner m ∧ p ∈ losersOf m then 1 else 0) := by
  by_cases ht : truthyWinner m
  · have hwnd : (winnersOf m).Nodup := by
      unfold winnersOf
      split
      · exact h1
      · exact h2
    have hlnd : (losersOf m).Nodup := by
      unfold losersOf
      split
      · exact h2
      · exact h1
    have hdisj : ∀ x, x ∈ winnersOf m → x ∉ losersOf m := by
      intro x
      unfold winnersOf losersOf
      by_cases hw1 : m.winning_team = some 1
      · rw [if_pos hw1, if_pos hw1]
        exact hd x
      · rw [if_neg hw1, if_neg hw1]
        intro hx2 hx1
        exact hd x hx1 hx2
    unfold applyMatch
    rw [if_pos ht]
    by_cases hw : p ∈ winnersOf m
    · have hl : p ∉ losersOf m := hdisj p hw
      rw [foldl_bumpLoss_not_mem _ _ _ hl, foldl_bumpWin_mem _ _ _ hwnd hw]
      rw [if_pos ⟨ht, hw⟩, if_neg (fun hc => hl hc.2)]
      simp [addCounts]
    · by_cases hl : p ∈ losersOf m
      · rw [foldl_bumpLoss_mem _ _ _ hlnd hl, foldl_bumpWin_not_mem _ _ _ hw]
        rw [if_neg (fun hc => hw hc.2), if_pos ⟨ht, hl⟩]
        simp [addCounts]
      · rw [foldl_bumpLoss_not_mem _ _ _ hl, foldl_bumpWin_not_mem _ _ _ hw]
        rw [if_neg (fun hc => hw hc.2), if_neg (fun hc => hl hc.2)]
        simp [addCounts]
  · unfold applyMatch
    rw [if_neg ht]
    rw [if_neg (fun hc => ht hc.1), if_neg (fun hc => ht hc.1)]
    simp [addCounts]

theorem addCounts_addCounts (o : Option PlayerStat) (w1 l1 w2 l2 : ℕ) :
    addCounts (addCounts o w1 l1) w2 l2 = addCounts o (w1 + w2) (l1 + l2) := by
  unfold addCounts
  by_cases hA : w1 + l1 = 0
  · obtain ⟨rfl, rfl⟩ : w1 = 0 ∧ l1 = 0 := by omega
    simp
  · rw [if_neg hA]
    by_cases hB : w2 + l2 = 0
    · obtain ⟨rfl, rfl⟩ : w2 = 0 ∧ l2 = 0 := by omega
      have hC : ¬ (w1 + 0 + (l1 + 0) = 0) := by omega
      rw [if_pos (by omega : (0 : ℕ) + 0 = 0), if_neg hC]
      simp
    · have hC : ¬ (w1 + w2) + (l1 + l2) = 0 := by omega
      rw [if_neg hB, if_neg hC]
      simp only [Option.getD_some]
      congr 1
      simp only [PlayerStat.mk.injEq]
      refine ⟨by omega, by omega, by omega, trivial⟩

theorem foldl_applyMatch_apply (ms : List TrainingMatch)
    (hms : ∀ m ∈ ms, m.team1.Nodup ∧ m.team2.Nodup ∧ ∀ x ∈ m.team1, x ∉ m.team2) :
    ∀ (f : Stats) (p : String),
      (ms.foldl applyMatch f) p =
        addCounts (f p) (countWinsIn ms p) (countLossesIn ms p) := by
  induction ms with
  | nil =>
    intro f p
    simp [countWinsIn, countLossesIn, addCounts]
  | cons m rest ih =>
    intro f p
    obtain ⟨h1, h2, hd⟩ := hms m (List.mem_cons_self m rest)
    rw [List.foldl_cons]
    rw [ih (fun m2 hm2 => hms m2 (List.mem_cons_of_mem m hm2)) (applyMatch f m) p]
    rw [applyMatch_apply f m p h1 h2 hd, addCounts_addCounts]
    have hw : countWinsIn (m :: rest) p =
        (if truthyWinner m ∧ p ∈ winnersOf m then 1 else 0) + countWinsIn rest p := by
      unfold countWinsIn
      rw [List.countP_cons, Nat.add_comm]
      congr 1
      by_cases hb : truthyWinner m ∧ p ∈ winnersOf m
      · rw [if_pos hb, if_pos (by simpa using hb)]
      · rw [if_neg hb, if_neg (by simpa using hb)]
    have hl : countLossesIn (m :: rest) p =
        (if truthyWinner m ∧ p ∈ losersOf m then 1 else 0) + countLossesIn rest p := by
      unfold countLossesIn
      rw [List.countP_cons, Nat.add_comm]
      congr 1
      by_cases hb : truthyWinner m ∧ p ∈ losersOf m
      · rw [if_pos hb, if_pos (by simpa using hb)]
      · rw [if_neg hb, if_neg (by simpa using hb)]
    rw [hw, hl]

theorem completedOf_idem (history : List TrainingMatch) :
    completedOf (completedOf history) = completedOf history := by
  unfold completedOf
  rw [List.filter_filter]
  apply List.filter_congr
  intro m _
  simp

/-! ## C9 — statistics derived from completed match history -/

/-- C9: the statistics consider only completed matches; each player's wins
(losses) count the completed matches with a recorded winner whose winning
(losing) side contains the player, matches is their sum, and win_rate equals
wins / matches for every player with at least one match. -/
theorem statistics_from_completed_matches (history : List TrainingMatch) (p : String)
    (hms : ∀ m ∈ history, m.team1.Nodup ∧ m.team2.Nodup ∧ ∀ x ∈ m.team1, x ∉ m.team2) :
    (calculatePlayerStatistics history p = none ↔
      specWins history p = 0 ∧ specLosses history p = 0) ∧
    (∀ s, calculatePlayerStatistics history p = some s →
      s.wins = specWins history p ∧ s.losses = specLosses history p ∧
      s.matchesPlayed = s.wins + s.losses ∧ 0 < s.matchesPlayed ∧
      s.win_rate = (s.wins : ℚ) / (s.matchesPlayed : ℚ)) ∧
    calculatePlayerStatistics (completedOf history) p =
      calculatePlayerStatistics history p := by
  have hsub : ∀ m ∈ completedOf history,
      m.team1.Nodup ∧ m.team2.Nodup ∧ ∀ x ∈ m.team1, x ∉ m.team2 :=
    fun m hm => hms m (List.mem_filter.mp hm).1
  have hraw : (completedOf history).foldl applyMatch (fun _ => none) p =
      addCounts none (specWins history p) (specLosses history p) :=
    foldl_applyMatch_apply (completedOf history) hsub (fun _ => none) p
  have hcalc : calculatePlayerStatistics history p =
      if specWins history p + specLosses history p = 0 then none
      else some ⟨specWins history p, specLosses history p,
        specWins history p + specLosses history p,
        (specWins history p : ℚ) /
          ((specWins history p + specLosses history p : ℕ) : ℚ)⟩ := by
    unfold calculatePlayerStatistics finalizeStats
    rw [hraw]
    unfold addCounts
    by_cases h0 : specWins history p + specLosses history p = 0
    · rw [if_pos h0, if_pos h0]
      rfl
    · rw [if_neg h0, if_neg h0]
      show some _ = some _
      congr 1
      simp only [Option.getD_none, zeroStat, Nat.zero_add]
      rw [if_pos (by omega : 0 < specWins history p + specLosses history p)]
  refine ⟨?_, ?_, ?_⟩
  · rw [hcalc]
    by_cases h0 : specWins history p + specLosses history p = 0
    · rw [if_pos h0]
      exact ⟨fun _ => by omega, fun _ => rfl⟩
    · rw [if_neg h0]
      constructor
      · intro habs
        exact absurd habs (by simp)
      · intro hc
        exact absurd (by omega) h0
  · intro s hs
    rw [hcalc] at hs
    by_cases h0 : specWins history p + specLosses history p = 0
    · rw [if_pos h0] at hs
      exact absurd hs (by simp)
    · rw [if_neg h0] at hs
      have hs2 := Option.some.inj hs
      rw [← hs2]
      have hpos : 0 < specWins history p + specLosses history p := by omega
      exact ⟨rfl, rfl, rfl, hpos, rfl⟩
  · unfold calculatePlayerStatistics
    rw [completedOf_idem]

/-- C9 witness: a two-match history (one completed, one pending) with
disjoint duplicate-free teams. -/
theorem statistics_from_completed_matches_witness :
    (∀ m ∈ [(⟨"m1", "d", ["a"], ["b"], some 1, "c", "completed", some "t"⟩ : TrainingMatch),
            ⟨"m2", "d", ["a"], ["b"], none, "c", "pending", none⟩],
      m.team1.Nodup ∧ m.team2.Nodup ∧ ∀ x ∈ m.team1, x ∉ m.team2) ∧
    calculatePlayerStatistics
      (completedOf [(⟨"m1", "d", ["a"], ["b"], some 1, "c", "completed", some "t"⟩ : TrainingMatch),
        ⟨"m2", "d", ["a"], ["b"], none, "c", "pending", none⟩]) "a" =
    calculatePlayerStatistics
      [(⟨"m1", "d", ["a"], ["b"], some 1, "c", "completed", some "t"⟩ : TrainingMatch),
        ⟨"m2", "d", ["a"], ["b"], none, "c", "pending", none⟩] "a" :=
  ⟨by decide,
   (statistics_from_completed_matches
     [⟨"m1", "d", ["a"], ["b"], some 1, "c", "completed", some "t"⟩,
      ⟨"m2", "d", ["a"], ["b"], none, "c", "pending", none⟩] "a" (by decide)).2.2⟩

/-! ## C7 — default win rate for players without history -/

theorem foldl_applyMatch_none (ms : List TrainingMatch) (p : String)
    (h : ∀ m ∈ ms, p ∉ m.team1 ∧ p ∉ m.team2) :
    ∀ f : Stats, f p = none → (ms.foldl applyMatch f) p = none := by
  induction ms with
  | nil =>
    intro f hf
    exact hf
  | cons m rest ih =>
    intro f hf
    rw [List.foldl_cons]
    apply ih (fun m2 hm2 => h m2 (List.mem_cons_of_mem m hm2))
    obtain ⟨ht1, ht2⟩ := h m (List.mem_cons_self m rest)
    unfold applyMatch
    by_cases ht : truthyWinner m
    · rw [if_pos ht]
      have hw : p ∉ winnersOf m := by
        unfold winnersOf
        split
        · exact ht1
        · exact ht2
      have hl : p ∉ losersOf m := by
        unfold losersOf
        split
        · exact ht2
        · exact ht1
      rw [foldl_bumpLoss_not_mem _ _ _ hl, foldl_bumpWin_not_mem _ _ _ hw]
      exact hf
    · rw [if_neg ht]
      exact hf

/-- C7: a player with zero completed matches in the history gets exactly the
default win rate 0.5, and the team-strength computation treats such a player
identically to any player whose computed win rate is 0.5. -/
theorem default_win_rate_neutral (history : List TrainingMatch) (p q : String)
    (t1 t2 : List String)
    (hp : ∀ m ∈ history, m.status = "completed" → p ∉ m.team1 ∧ p ∉ m.team2) :
    getPlayerWinRate (calculatePlayerStatistics history) p = defaultWinRate ∧
    defaultWinRate = 1/2 ∧
    (getPlayerWinRate (calculatePlayerStatistics history) q = 1/2 →
      calculateTeamStrength (calculatePlayerStatistics history) (t1 ++ p :: t2) =
        calculateTeamStrength (calculatePlayerStatistics history) (t1 ++ q :: t2)) := by
  have hraw : (completedOf history).foldl applyMatch (fun _ => none) p = none := by
    apply foldl_applyMatch_none
    · intro m hm
      have hmf := List.mem_filter.mp hm
      exact hp m hmf.1 (by simpa using hmf.2)
    · rfl
  have hnone : calculatePlayerStatistics history p = none := by
    unfold calculatePlayerStatistics finalizeStats
    rw [hraw]
    rfl
  have hrate : getPlayerWinRate (calculatePlayerStatistics history) p = defaultWinRate := by
    unfold getPlayerWinRate
    rw [hnone]
  refine ⟨hrate, rfl, ?_⟩
  intro hq
  unfold calculateTeamStrength
  rw [if_neg (by simp : ¬ t1 ++ p :: t2 = []), if_neg (by simp : ¬ t1 ++ q :: t2 = [])]
  have hlen : (t1 ++ p :: t2).length = (t1 ++ q :: t2).length := by simp
  rw [hlen]
  congr 1
  rw [List.map_append, List.map_append, List.map_cons, List.map_cons, hrate, hq]
  rfl

/-- C7 witness: a fresh player is rated 0.5 and substituting them for another
0.5-rated player leaves the team strength unchanged. -/
theorem default_win_rate_neutral_witness :
    (∀ m ∈ [(⟨"m1", "d", ["a"], ["b"], some 1, "c", "completed", some "t"⟩ : TrainingMatch)],
      m.status = "completed" → "x" ∉ m.team1 ∧ "x" ∉ m.team2) ∧
    getPlayerWinRate (calculatePlayerStatistics
      [⟨"m1", "d", ["a"], ["b"], some 1, "c", "completed", some "t"⟩]) "x" =
      defaultWinRate ∧
    calculateTeamStrength (calculatePlayerStatistics
        [⟨"m1", "d", ["a"], ["b"], some 1, "c", "completed", some "t"⟩])
        (["a"] ++ "x" :: []) =
      calculateTeamStrength (calculatePlayerStatistics
        [⟨"m1", "d", ["a"], ["b"], some 1, "c", "completed", some "t"⟩])
        (["a"] ++ "y" :: []) := by
  have h := default_win_rate_neutral
    [⟨"m1", "d", ["a"], ["b"], some 1, "c", "completed", some "t"⟩] "x" "y" ["a"] []
    (by decide)
  exact ⟨by decide, h.1, h.2.2 rfl⟩

/-! ## Greedy balancer lemmas -/

theorem perm_insert_mid (t1 t2 x : List String) (p : String) :
    ((t1 ++ [p]) ++ t2 ++ x).Perm (t1 ++ t2 ++ p :: x) := by
  have h1 : (t1 ++ [p]) ++ t2 ++ x = t1 ++ p :: (t2 ++ x) := by
    simp [List.append_assoc]
  have h2 : t1 ++ t2 ++ p :: x = t1 ++ (t2 ++ p :: x) := by
    simp [List.append_assoc]
  rw [h1, h2]
  apply List.Perm.append_left
  exact List.perm_middle.symm

theorem greedyLoop_spec (stats : Stats) (k : ℕ) :
    ∀ (ps t1 t2 : List String), t1.length ≤ k → t2.length ≤ k →
      2 * k ≤ t1.length + t2.length + ps.length →
      ((greedyLoop stats k ps t1 t2).1.length = k ∧
       (greedyLoop stats k ps t1 t2).2.length = k ∧
       ((greedyLoop stats k ps t1 t2).1 ++ (greedyLoop stats k ps t1 t2).2).Perm
         (t1 ++ t2 ++ ps.take (2 * k - t1.length - t2.length))) := by
  intro ps
  induction ps with
  | nil =>
    intro t1 t2 h1 h2 hsum
    simp only [List.length_nil, Nat.add_zero] at hsum
    have hl1 : t1.length = k := by omega
    have hl2 : t2.length = k := by omega
    simp only [greedyLoop]
    refine ⟨hl1, hl2, ?_⟩
    have h0 : 2 * k - t1.length - t2.length = 0 := by omega
    rw [h0]
    simp
  | cons p ps ih =>
    intro t1 t2 h1 h2 hsum
    simp only [List.length_cons] at hsum
    simp only [greedyLoop]
    by_cases hc : k ≤ t1.length ∧ k ≤ t2.length
    · rw [if_pos hc]
      have hl1 : t1.length = k := le_antisymm h1 hc.1
      have hl2 : t2.length = k := le_antisymm h2 hc.2
      refine ⟨hl1, hl2, ?_⟩
      have h0 : 2 * k - t1.length - t2.length = 0 := by omega
      rw [h0]
      simp
    · rw [if_neg hc]
      by_cases hc1 : k ≤ t1.length
      · rw [if_pos hc1]
        have hl2 : t2.length < k := by
          rcases Nat.lt_or_ge t2.length k with h | h
          · exact h
          · exact absurd ⟨hc1, h⟩ hc
        have hrec := ih t1 (t2 ++ [p]) h1 (by simp; omega) (by simp; omega)
        refine ⟨hrec.1, hrec.2.1, ?_⟩
        have harith : 2 * k - t1.length - t2.length =
            (2 * k - t1.length - (t2 ++ [p]).length) + 1 := by
          simp only [List.length_append, List.length_singleton]
          omega
        rw [harith, List.take_succ_cons]
        have heq : t1 ++ (t2 ++ [p]) ++
            ps.take (2 * k - t1.length - (t2 ++ [p]).length) =
            t1 ++ t2 ++ p :: ps.take (2 * k - t1.length - (t2 ++ [p]).length) := by
          simp [List.append_assoc]
        rw [← heq]
        exact hrec.2.2
      · rw [if_neg hc1]
        have hl1 : t1.length < k := Nat.lt_of_not_le hc1
        by_cases hc2 : k ≤ t2.length
        · rw [if_pos hc2]
          have hrec := ih (t1 ++ [p]) t2 (by simp; omega) h2 (by simp; omega)
          refine ⟨hrec.1, hrec.2.1, ?_⟩
          have harith : 2 * k - t1.length - t2.length =
              (2 * k - (t1 ++ [p]).length - t2.length) + 1 := by
            simp only [List.length_append, List.length_singleton]
            omega
          rw [harith, List.take_succ_cons]
          exact hrec.2.2.trans (perm_insert_mid t1 t2 _ p)
        · rw [if_neg hc2]
          have hl2 : t2.length < k := Nat.lt_of_not_le hc2
          by_cases hb : |calculateTeamStrength stats (t1 ++ [p]) -
              calculateTeamStrength stats t2| ≤
              |calculateTeamStrength stats (t2 ++ [p]) -
              calculateTeamStrength stats t1|
          · rw [if_pos hb]
            have hrec := ih (t1 ++ [p]) t2 (by simp; omega) h2 (by simp; omega)
            refine ⟨hrec.1, hrec.2.1, ?_⟩
            have harith : 2 * k - t1.length - t2.length =
                (2 * k - (t1 ++ [p]).length - t2.length) + 1 := by
              simp only [List.length_append, List.length_singleton]
              omega
            rw [harith, List.take_succ_cons]
            exact hrec.2.2.trans (perm_insert_mid t1 t2 _ p)
          · rw [if_neg hb]
            have hrec := ih t1 (t2 ++ [p]) h1 (by simp; omega) (by simp; omega)
            refine ⟨hrec.1, hrec.2.1, ?_⟩
            have harith : 2 * k - t1.length - t2.length =
                (2 * k - t1.length - (t2 ++ [p]).length) + 1 := by
              simp only [List.length_append, List.length_singleton]
              omega
            rw [harith, List.take_succ_cons]
            have heq : t1 ++ (t2 ++ [p]) ++
                ps.take (2 * k - t1.length - (t2 ++ [p]).length) =
                t1 ++ t2 ++ p :: ps.take (2 * k - t1.length - (t2 ++ [p]).length) := by
              simp [List.append_assoc]
            rw [← heq]
            exact hrec.2.2

theorem greedy_spec (stats : Stats) (sh : List String) (h2 : 2 ≤ sh.length) :
    (generateBalancedTeamsGreedy stats sh).1.length = sh.length / 2 ∧
    (generateBalancedTeamsGreedy stats sh).2.length = sh.length / 2 ∧
    ((generateBalancedTeamsGreedy stats sh).1 ++
      (generateBalancedTeamsGreedy stats sh).2 ++
      sh.drop (2 * (sh.length / 2))).Perm sh := by
  unfold generateBalancedTeamsGreedy
  rw [if_neg (by omega : ¬ sh.length < 2)]
  have h := greedyLoop_spec stats (sh.length / 2) sh [] [] (by simp) (by simp)
    (by simp; omega)
  refine ⟨h.1, h.2.1, ?_⟩
  have hperm := h.2.2
  simp only [List.nil_append, List.length_nil, Nat.sub_zero] at hperm
  have hfin := hperm.append_right (sh.drop (2 * (sh.length / 2)))
  rw [List.take_append_drop] at hfin
  exact hfin

/-! ## Early-exit search lemmas -/

theorem takeUntilIncl_length_le {α : Type} (p : α → Bool) (l : List α) :
    (takeUntilIncl p l).length ≤ l.length := by
  induction l with
  | nil => simp [takeUntilIncl]
  | cons a as ih =>
    unfold takeUntilIncl
    by_cases h : p a
    · rw [if_pos h]
      simp
    · rw [if_neg h]
      simpa using ih

theorem takeUntilIncl_subset {α : Type} (p : α → Bool) (l : List α) :
    ∀ a ∈ takeUntilIncl p l, a ∈ l := by
  induction l with
  | nil => simp [takeUntilIncl]
  | cons a as ih =>
    unfold takeUntilIncl
    by_cases h : p a
    · rw [if_pos h]
      intro b hb
      rw [List.mem_singleton.mp hb]
      exact List.mem_cons_self a as
    · rw [if_neg h]
      intro b hb
      rcases List.mem_cons.mp hb with rfl | hb
      · exact List.mem_cons_self b as
      · exact List.mem_cons_of_mem a (ih b hb)

theorem takeUntilIncl_dropLast {α : Type} (p : α → Bool) (l : List α) :
    ∀ a ∈ (takeUntilIncl p l).dropLast, p a = false := by
  induction l with
  | nil => simp [takeUntilIncl]
  | cons a as ih =>
    unfold takeUntilIncl
    by_cases h : p a
    · rw [if_pos h]
      simp
    · rw [if_neg h]
      cases htu : takeUntilIncl p as with
      | nil =>
        simp
      | cons b bs =>
        rw [List.dropLast_cons₂]
        intro x hx
        rcases List.mem_cons.mp hx with rfl | hx
        · exact Bool.eq_false_iff.mpr h
        · rw [← htu] at hx
          exact ih x hx

theorem takeUntilIncl_ne_nil {α : Type} (p : α → Bool) {l : List α} (h : l ≠ []) :
    takeUntilIncl p l ≠ [] := by
  cases l with
  | nil => exact absurd rfl h
  | cons a as =>
    unfold takeUntilIncl
    by_cases hp : p a
    · rw [if_pos hp]
      simp
    · rw [if_neg hp]
      simp

theorem searchLoop_eq_foldl (stats : Stats) (players : List String) :
    ∀ (cs : List (List ℕ)) (best : Option ((List String × List String) × ℚ)),
      searchLoop stats players cs best =
        (takeUntilIncl (fun c => candDiff stats players c < 1/20) cs).foldl
          (stepBest stats players) best := by
  intro cs
  induction cs with
  | nil =>
    intro best
    rfl
  | cons c cs ih =>
    intro best
    simp only [searchLoop, takeUntilIncl]
    by_cases hc : candDiff stats players c < 1/20
    · rw [if_pos hc, if_pos (by simpa using hc), List.foldl_cons, List.foldl_nil]
    · rw [if_neg hc, if_neg (by simpa using hc), List.foldl_cons]
      exact ih (stepBest stats players best c)

theorem foldl_stepBest_some (stats : Stats) (players : List String) :
    ∀ (cs : List (List ℕ)) (bt : List String × List String) (bd : ℚ),
      ∃ bt2 bd2,
        cs.foldl (stepBest stats players) (some (bt, bd)) = some (bt2, bd2) ∧
        bd2 ≤ bd ∧ (∀ c ∈ cs, bd2 ≤ candDiff stats players c) ∧
        ((bt2, bd2) = (bt, bd) ∨
          ∃ c ∈ cs, bt2 = (optTeam1 players c, optTeam2 players c) ∧
            bd2 = candDiff stats players c) := by
  intro cs
  induction cs with
  | nil =>
    intro bt bd
    exact ⟨bt, bd, rfl, le_refl _, by simp, Or.inl rfl⟩
  | cons c cs ih =>
    intro bt bd
    rw [List.foldl_cons]
    by_cases hc : candDiff stats players c < bd
    · have hstep : stepBest stats players (some (bt, bd)) c =
          some ((optTeam1 players c, optTeam2 players c), candDiff stats players c) := by
        show (if candDiff stats players c < bd then
            some ((optTeam1 players c, optTeam2 players c), candDiff stats players c)
          else some (bt, bd)) =
          some ((optTeam1 players c, optTeam2 players c), candDiff stats players c)
        rw [if_pos hc]
      rw [hstep]
      obtain ⟨bt2, bd2, heq, hle, hall, horig⟩ :=
        ih (optTeam1 players c, optTeam2 players c) (candDiff stats players c)
      refine ⟨bt2, bd2, heq, le_trans hle (le_of_lt hc), ?_, ?_⟩
      · intro c2 hc2
        rcases List.mem_cons.mp hc2 with rfl | hc2
        · exact hle
        · exact hall c2 hc2
      · rcases horig with h | ⟨c2, hc2, h⟩
        · refine Or.inr ⟨c, List.mem_cons_self c cs, ?_, ?_⟩
          · exact congrArg Prod.fst h
          · exact congrArg Prod.snd h
        · exact Or.inr ⟨c2, List.mem_cons_of_mem c hc2, h⟩
    · have hstep : stepBest stats players (some (bt, bd)) c = some (bt, bd) := by
        show (if candDiff stats players c < bd then
            some ((optTeam1 players c, optTeam2 players c), candDiff stats players c)
          else some (bt, bd)) = some (bt, bd)
        rw [if_neg hc]
      rw [hstep]
      obtain ⟨bt2, bd2, heq, hle, hall, horig⟩ := ih bt bd
      refine ⟨bt2, bd2, heq, hle, ?_, ?_⟩
      · intro c2 hc2
        rcases List.mem_cons.mp hc2 with rfl | hc2
        · exact le_trans hle (not_lt.mp hc)
        · exact hall c2 hc2
      · rcases horig with h | ⟨c2, hc2, h⟩
        · exact Or.inl h
        · exact Or.inr ⟨c2, List.mem_cons_of_mem c hc2, h⟩

theorem searchLoop_result (stats : Stats) (players : List String)
    (cs : List (List ℕ)) (hne : cs ≠ []) :
    ∃ c ∈ takeUntilIncl (fun c => candDiff stats players c < 1/20) cs,
      searchLoop stats players cs none =
        some ((optTeam1 players c, optTeam2 players c), candDiff stats players c) ∧
      ∀ c2 ∈ takeUntilIncl (fun c => candDiff stats players c < 1/20) cs,
        candDiff stats players c ≤ candDiff stats players c2 := by
  rw [searchLoop_eq_foldl]
  obtain ⟨c0, rest, htu⟩ :=
    List.exists_cons_of_ne_nil
      (takeUntilIncl_ne_nil (fun c => candDiff stats players c < 1/20) hne)
  rw [htu, List.foldl_cons]
  have hstep : stepBest stats players none c0 =
      some ((optTeam1 players c0, optTeam2 players c0), candDiff stats players c0) := rfl
  rw [hstep]
  obtain ⟨bt2, bd2, heq, hle, hall, horig⟩ :=
    foldl_stepBest_some stats players rest
      (optTeam1 players c0, optTeam2 players c0) (candDiff stats players c0)
  rcases horig with h | ⟨c, hc, h1, h2⟩
  · refine ⟨c0, List.mem_cons_self c0 rest, ?_, ?_⟩
    · rw [heq, h]
    · intro c2 hc2
      rcases List.mem_cons.mp hc2 with rfl | hc2
      · exact le_refl _
      · have := hall c2 hc2
        have hbd : bd2 = candDiff stats players c0 := congrArg Prod.snd h
        rw [← hbd]
        exact this
  · refine ⟨c, List.mem_cons_of_mem c0 hc, ?_, ?_⟩
    · rw [heq, h1, h2]
    · intro c2 hc2
      rcases List.mem_cons.mp hc2 with rfl | hc2
      · rw [← h2]
        exact hle
      · rw [← h2]
        exact hall c2 hc2

/-! ## Index-set lemmas for the optimal balancer -/

theorem optTeam1_length (players : List String) (c : List ℕ)
    (h : ∀ i ∈ c, i < players.length) : (optTeam1 players c).length = c.length := by
  unfold optTeam1
  induction c with
  | nil => rfl
  | cons i rest ih =>
    rw [List.filterMap_cons]
    rw [List.get?_eq_get (h i (List.mem_cons_self i rest))]
    show (List.filterMap (fun i => players.get? i) rest).length + 1 = (i :: rest).length
    rw [List.length_cons, ih (fun j hj => h j (List.mem_cons_of_mem i hj))]

theorem range_filterMap_get {α : Type} (l : List α) :
    (List.range l.length).filterMap (fun i => l.get? i) = l := by
  induction l with
  | nil => rfl
  | cons a t ih =>
    rw [List.length_cons, List.range_succ_eq_map, List.filterMap_cons]
    show a :: ((List.range t.length).map Nat.succ).filterMap
      (fun i => (a :: t).get? i) = a :: t
    rw [List.filterMap_map]
    show a :: (List.range t.length).filterMap (fun i => t.get? i) = a :: t
    rw [ih]

theorem filter_mem_of_sublist {l c : List ℕ} (hnd : l.Nodup) (hs : List.Sublist c l) :
    l.filter (fun i => i ∈ c) = c := by
  induction hs with
  | slnil => rfl
  | @cons c l a hs ih =>
    rw [List.nodup_cons] at hnd
    have ha : a ∉ c := fun hac => hnd.1 (hs.subset hac)
    rw [List.filter_cons, if_neg (by simpa using ha)]
    exact ih hnd.2
  | @cons₂ c l a hs ih =>
    rw [List.nodup_cons] at hnd
    rw [List.filter_cons, if_pos (by simp)]
    congr 1
    have hcongr : l.filter (fun i => i ∈ a :: c) = l.filter (fun i => i ∈ c) := by
      apply List.filter_congr
      intro x hx
      have hxa : x ≠ a := fun hyp => hnd.1 (hyp ▸ hx)
      simp [hxa]
    rw [hcongr]
    exact ih hnd.2

theorem optTeam_append_perm (players : List String) (c : List ℕ)
    (hs : List.Sublist c (List.range players.length)) :
    (optTeam1 players c ++ optTeam2 players c).Perm players := by
  unfold optTeam1 optTeam2
  rw [← List.filterMap_append]
  have hnd : (List.range players.length).Nodup := List.nodup_range players.length
  have hperm : (c ++ (List.range players.length).filter (fun i => i ∉ c)).Perm
      (List.range players.length) := by
    have hp := List.filter_append_perm (fun i => decide (i ∈ c))
      (List.range players.length)
    have hf1 : (List.range players.length).filter (fun i => decide (i ∈ c)) = c :=
      filter_mem_of_sublist hnd hs
    have hf2 : (List.range players.length).filter (fun i => !decide (i ∈ c)) =
        (List.range players.length).filter (fun i => i ∉ c) := by
      apply List.filter_congr
      intro x _
      simp
    rw [hf1, hf2] at hp
    exact hp
  have hmap := hperm.filterMap (fun i => players.get? i)
  rw [range_filterMap_get] at hmap
  exact hmap

theorem optimal_core (stats : Stats) (players : List String) (cs : List (List ℕ))
    (gsh : List String) (h2 : 2 ≤ players.length) (h16 : players.length ≤ 16)
    (hcs : cs.Perm (allCombinations players.length)) :
    ∃ c ∈ evaluatedCands stats players cs,
      generateBalancedTeamsOptimal stats players cs gsh =
        (optTeam1 players c, optTeam2 players c) ∧
      (∀ c2 ∈ evaluatedCands stats players cs,
        candDiff stats players c ≤ candDiff stats players c2) ∧
      (optTeam1 players c).length = players.length / 2 ∧
      (optTeam2 players c).length = players.length - players.length / 2 ∧
      (optTeam1 players c ++ optTeam2 players c).Perm players := by
  have hcs_len : cs.length = Nat.choose players.length (players.length / 2) := by
    rw [hcs.length_eq]
    unfold allCombinations
    rw [List.length_sublistsLen, List.length_range]
  have hchoose : 0 < Nat.choose players.length (players.length / 2) :=
    Nat.choose_pos (Nat.div_le_self players.length 2)
  have hcs_ne : cs ≠ [] := by
    intro h
    rw [h] at hcs_len
    simp at hcs_len
    omega
  have hcons_len : (cs.take (min 1000 cs.length)).length = min 1000 cs.length := by
    rw [List.length_take]
    omega
  have hcons_ne : cs.take (min 1000 cs.length) ≠ [] := by
    intro h
    rw [h] at hcons_len
    simp at hcons_len
    have : cs.length = 0 := by omega
    exact hcs_ne (List.length_eq_zero.mp this)
  obtain ⟨c, hc, hres, hmin⟩ :=
    searchLoop_result stats players (cs.take (min 1000 cs.length)) hcons_ne
  have hc_cs : c ∈ cs :=
    List.take_subset _ cs
      (takeUntilIncl_subset (fun c => candDiff stats players c < 1/20) _ c hc)
  have hc_all : c ∈ allCombinations players.length := hcs.subset hc_cs
  obtain ⟨hsub, hlen⟩ := List.mem_sublistsLen.mp hc_all
  have ht1len : (optTeam1 players c).length = c.length := by
    apply optTeam1_length
    intro i hi
    have := hsub.subset hi
    rw [List.mem_range] at this
    exact this
  have ht1ne : ¬ optTeam1 players c = [] := by
    intro h
    rw [h] at ht1len
    have h1 : 1 ≤ players.length / 2 := by omega
    rw [hlen] at ht1len
    simp at ht1len
    omega
  have hperm : (optTeam1 players c ++ optTeam2 players c).Perm players :=
    optTeam_append_perm players c hsub
  have hlen1 : (optTeam1 players c).length = players.length / 2 := by
    rw [ht1len, hlen]
  have hlen2 : (optTeam2 players c).length = players.length - players.length / 2 := by
    have htot := hperm.length_eq
    rw [List.length_append, hlen1] at htot
    omega
  refine ⟨c, hc, ?_, hmin, hlen1, hlen2, hperm⟩
  unfold generateBalancedTeamsOptimal
  rw [if_neg (by omega : ¬ players.length < 2), if_neg (by omega : ¬ 16 < players.length)]
  show (match searchLoop stats players (cs.take (min 1000 cs.length)) none with
    | none => generateBalancedTeamsGreedy stats gsh
    | some (bt, _) =>
      if bt.1 = [] ∧ bt.2 = [] then generateBalancedTeamsGreedy stats gsh else bt) =
    (optTeam1 players c, optTeam2 players c)
  rw [hres]
  show (if optTeam1 players c = [] ∧ optTeam2 players c = [] then
      generateBalancedTeamsGreedy stats gsh
    else (optTeam1 players c, optTeam2 players c)) = _
  rw [if_neg (fun hcond => ht1ne hcond.1)]

/-! ## C8 — the optimal strategy’s bounded randomized search -/

/-- C8: for more than 16 players the optimal strategy returns exactly the
greedy result; for 2 ≤ n ≤ 16 it evaluates at most
min(max_iterations, C(n, n//2)) shuffled candidates, stopping immediately
after the first whose strength difference is below 0.05 (all earlier
evaluated candidates are ≥ 0.05), and returns the evaluated candidate with
minimal strength difference; with no candidates at all it falls back to
greedy. -/
theorem optimal_search_spec (stats : Stats) (players : List String)
    (cs : List (List ℕ)) (gsh : List String) :
    (16 < players.length →
      generateBalancedTeamsOptimal stats players cs gsh =
        generateBalancedTeamsGreedy stats gsh) ∧
    (2 ≤ players.length → players.length ≤ 16 →
      cs.Perm (allCombinations players.length) →
      (evaluatedCands stats players cs).length ≤
        min 1000 (Nat.choose players.length (players.length / 2)) ∧
      (∀ c ∈ (evaluatedCands stats players cs).dropLast,
        ¬ candDiff stats players c < 1/20) ∧
      (∃ c ∈ evaluatedCands stats players cs,
        generateBalancedTeamsOptimal stats players cs gsh =
          (optTeam1 players c, optTeam2 players c) ∧
        ∀ c2 ∈ evaluatedCands stats players cs,
          candDiff stats players c ≤ candDiff stats players c2)) ∧
    (2 ≤ players.length → players.length ≤ 16 →
      generateBalancedTeamsOptimal stats players [] gsh =
        generateBalancedTeamsGreedy stats gsh) := by
  refine ⟨?_, ?_, ?_⟩
  · intro h16
    unfold generateBalancedTeamsOptimal
    rw [if_neg (by omega : ¬ players.length < 2), if_pos h16]
  · intro h2 h16 hcs
    obtain ⟨c, hc, hres, hmin, -, -, -⟩ :=
      optimal_core stats players cs gsh h2 h16 hcs
    refine ⟨?_, ?_, ⟨c, hc, hres, hmin⟩⟩
    · unfold evaluatedCands
      have ht := takeUntilIncl_length_le (fun c => candDiff stats players c < 1/20)
        (cs.take (min 1000 cs.length))
      have htake : (cs.take (min 1000 cs.length)).length = min 1000 cs.length := by
        rw [List.length_take]
        omega
      have hlen : cs.length = Nat.choose players.length (players.length / 2) := by
        rw [hcs.length_eq]
        unfold allCombinations
        rw [List.length_sublistsLen, List.length_range]
      rw [← hlen]
      exact le_trans ht (le_of_eq htake)
    · intro c2 hc2
      unfold evaluatedCands at hc2
      have := takeUntilIncl_dropLast (fun c => candDiff stats players c < 1/20)
        (cs.take (min 1000 cs.length)) c2 hc2
      simpa using this
  · intro h2 h16
    unfold generateBalancedTeamsOptimal
    rw [if_neg (by omega : ¬ players.length < 2), if_neg (by omega : ¬ 16 < players.length)]
    rfl

/-- C8 witness: two players, all `C(2,1) = 2` candidate subsets. -/
theorem optimal_search_spec_witness :
    2 ≤ (["a", "b"] : List String).length ∧
    ((evaluatedCands (fun _ => none) ["a", "b"] (allCombinations 2)).length ≤
      min 1000 (Nat.choose (["a", "b"] : List String).length
        ((["a", "b"] : List String).length / 2)) ∧
     (∀ c ∈ (evaluatedCands (fun _ => none) ["a", "b"] (allCombinations 2)).dropLast,
       ¬ candDiff (fun _ => none) ["a", "b"] c < 1/20) ∧
     (∃ c ∈ evaluatedCands (fun _ => none) ["a", "b"] (allCombinations 2),
       generateBalancedTeamsOptimal (fun _ => none) ["a", "b"] (allCombinations 2)
           ["a", "b"] =
         (optTeam1 ["a", "b"] c, optTeam2 ["a", "b"] c) ∧
       ∀ c2 ∈ evaluatedCands (fun _ => none) ["a", "b"] (allCombinations 2),
         candDiff (fun _ => none) ["a", "b"] c ≤
           candDiff (fun _ => none) ["a", "b"] c2)) :=
  ⟨by decide,
   (optimal_search_spec (fun _ => none) ["a", "b"] (allCombinations 2) ["a", "b"]).2.1
     (by decide) (by decide) (List.Perm.refl _)⟩

/-! ## C1 — team sizes and partition -/

/-- C1 counterexample: with three players and the optimal strategy (a concrete
injected shuffle), team2 has 2 players, not `3 // 2 = 1` as the claim
requires for every n ≥ 2 and either strategy. -/
theorem teams_partition_cex :
    2 ≤ (["a", "b", "c"] : List String).length ∧
    (["a", "b", "c"] : List String).Nodup ∧
    ¬ (generateSmartTeams (fun _ => none) ["a", "b", "c"] "optimal" ["a", "b", "c"]
        (allCombinations 3)).2.1.length = (["a", "b", "c"] : List String).length / 2 := by
  refine ⟨by decide, by decide, ?_⟩
  obtain ⟨c, hc, hres, -, -, hl2, -⟩ :=
    optimal_core (fun _ => none) ["a", "b", "c"] (allCombinations 3) ["a", "b", "c"]
      (by decide) (by decide) (List.Perm.refl _)
  have hproj : (generateSmartTeams (fun _ => none) ["a", "b", "c"] "optimal"
      ["a", "b", "c"] (allCombinations 3)).2.1 =
      (generateBalancedTeamsOptimal (fun _ => none) ["a", "b", "c"]
        (allCombinations 3) ["a", "b", "c"]).2 := rfl
  rw [hproj, hres]
  show ¬ (optTeam2 ["a", "b", "c"] c).length = (["a", "b", "c"] : List String).length / 2
  rw [hl2]
  decide

/-- C1 (amended): the greedy strategy (and hence the optimal strategy for
n > 16, which delegates to it) returns equal teams of size n // 2 with an
n % 2 reserve, the three parts together being exactly the input players with
no duplicates; the optimal strategy for 2 ≤ n ≤ 16 instead returns
team1 of size n // 2 and team2 of size n − n // 2 (the extra player on odd n
goes to team2), together exactly the input players with no reserve. -/
theorem teams_partition_amended (stats : Stats) (players gsh : List String)
    (cs : List (List ℕ)) (hnd : players.Nodup) (hsh : gsh.Perm players)
    (h2 : 2 ≤ players.length) :
    ((generateSmartTeams stats players "greedy" gsh cs).1.length =
       players.length / 2 ∧
     (generateSmartTeams stats players "greedy" gsh cs).2.1.length =
       players.length / 2 ∧
     ∃ reserve : List String, reserve.length = players.length % 2 ∧
       ((generateSmartTeams stats players "greedy" gsh cs).1 ++
        (generateSmartTeams stats players "greedy" gsh cs).2.1 ++ reserve).Perm
         players ∧
       ((generateSmartTeams stats players "greedy" gsh cs).1 ++
        (generateSmartTeams stats players "greedy" gsh cs).2.1 ++
        reserve).Nodup) ∧
    (players.length ≤ 16 → cs.Perm (allCombinations players.length) →
     (generateSmartTeams stats players "optimal" gsh cs).1.length =
       players.length / 2 ∧
     (generateSmartTeams stats players "optimal" gsh cs).2.1.length =
       players.length - players.length / 2 ∧
     ((generateSmartTeams stats players "optimal" gsh cs).1 ++
      (generateSmartTeams stats players "optimal" gsh cs).2.1).Perm players ∧
     ((generateSmartTeams stats players "optimal" gsh cs).1 ++
      (generateSmartTeams stats players "optimal" gsh cs).2.1).Nodup) ∧
    (16 < players.length →
     generateSmartTeams stats players "optimal" gsh cs =
       generateSmartTeams stats players "greedy" gsh cs) := by
  have hlen : gsh.length = players.length := hsh.length_eq
  have hp1 : (generateSmartTeams stats players "greedy" gsh cs).1 =
      (generateBalancedTeamsGreedy stats gsh).1 := rfl
  have hp2 : (generateSmartTeams stats players "greedy" gsh cs).2.1 =
      (generateBalancedTeamsGreedy stats gsh).2 := rfl
  have hq1 : (generateSmartTeams stats players "optimal" gsh cs).1 =
      (generateBalancedTeamsOptimal stats players cs gsh).1 := rfl
  have hq2 : (generateSmartTeams stats players "optimal" gsh cs).2.1 =
      (generateBalancedTeamsOptimal stats players cs gsh).2 := rfl
  have hg := greedy_spec stats gsh (by omega)
  refine ⟨⟨?_, ?_, ?_⟩, ?_, ?_⟩
  · rw [hp1, hg.1, hlen]
  · rw [hp2, hg.2.1, hlen]
  · refine ⟨gsh.drop (2 * (gsh.length / 2)), ?_, ?_, ?_⟩
    · rw [List.length_drop]
      omega
    · rw [hp1, hp2]
      exact hg.2.2.trans hsh
    · rw [hp1, hp2]
      exact ((hg.2.2.trans hsh).nodup_iff).mpr hnd
  · intro h16 hcs
    obtain ⟨c, hc, hres, hmin, hl1, hl2, hperm⟩ :=
      optimal_core stats players cs gsh h2 h16 hcs
    rw [hq1, hq2, hres]
    exact ⟨hl1, hl2, hperm, (hperm.nodup_iff).mpr hnd⟩
  · intro h16
    have hog : generateBalancedTeamsOptimal stats players cs gsh =
        generateBalancedTeamsGreedy stats gsh := by
      unfold generateBalancedTeamsOptimal
      rw [if_neg (by omega : ¬ players.length < 2), if_pos h16]
    exact congrArg
      (fun t : List String × List String =>
        (t.1, t.2, getTeamBalanceInfo stats t.1 t.2)) hog

/-- C1 witness: three players; greedy gives a 1–1 split with a reserve, while
optimal gives a 1–2 split. -/
theorem teams_partition_amended_witness :
    (["a", "b", "c"] : List String).Nodup ∧
    (generateSmartTeams (fun _ => none) ["a", "b", "c"] "greedy" ["a", "b", "c"]
      (allCombinations 3)).1.length = 1 ∧
    (generateSmartTeams (fun _ => none) ["a", "b", "c"] "greedy" ["a", "b", "c"]
      (allCombinations 3)).2.1.length = 1 ∧
    (generateSmartTeams (fun _ => none) ["a", "b", "c"] "optimal" ["a", "b", "c"]
      (allCombinations 3)).2.1.length = 2 := by
  have h := teams_partition_amended (fun _ => none) ["a", "b", "c"] ["a", "b", "c"]
    (allCombinations 3) (by decide) (List.Perm.refl _) (by decide)
  exact ⟨by decide, h.1.1, h.1.2.1, (h.2.1 (by decide) (List.Perm.refl _)).2.1⟩

end Bkskjold
